import Mathlib

/-!
Verification development for the opm-core sparse-matrix layer
(src/opm/core/linalg/SparseMatrix.hpp, SparseMatrix_impl.hpp,
SparseMatrix_csr.hpp) and the cubic spline engine (src/Spline.hpp).

The sparse-matrix layer is embedded over ℚ: the structural claims under
study (CSR shape, lookups, builder round-trips) treat the stored scalars
as opaque data, so exact rationals are a faithful stand-in for `double`.
Assertions (`assert(...)`) are modelled in release semantics (no-ops);
where a claim is about an assertion itself, a separate `...Checked`
definition models the assert as an `Option` guard.
-/

set_option maxHeartbeats 1000000

namespace OpmCore

/-- Coordinate key of the map-based builder, from `struct CO` in
SparseMatrix.hpp (lines 287-303). -/
structure CO where
  row : Nat
  col : Nat
deriving DecidableEq, Repr

/-- Literal translation of `CO::operator<`:
`if (row_ > o.row_) return false; return row_ < o.row_ || col_ < o.col_;`. -/
def CO.lt (a b : CO) : Bool :=
  if a.row > b.row then false
  else decide (a.row < b.row) || decide (a.col < b.col)

/-- Propositional form of `CO::operator<`. -/
def CO.ltP (a b : CO) : Prop := CO.lt a b = true

instance : DecidablePred fun p : CO × CO => CO.ltP p.1 p.2 := by
  intro p; unfold CO.ltP; infer_instance

instance (a b : CO) : Decidable (CO.ltP a b) := by
  unfold CO.ltP; infer_instance

/-- An entry of the builder map: a key together with its scalar value. -/
abbrev Entry := CO × ℚ

/-- Ordered insertion into the sorted key-value list that models the
`std::map< CO, Scalar >` backing the builder.  Equivalent keys (neither
`a < b` nor `b < a`) are merged with `combine old new`.  `std::map`
look-up/insertion is by binary search over the tree; the sorted
association list is its canonical shallow embedding. -/
def mapUpsert (combine : ℚ → ℚ → ℚ) : List Entry → CO → ℚ → List Entry
  | [], k, v => [(k, v)]
  | (k', v') :: rest, k, v =>
    if CO.lt k k' then (k, v) :: (k', v') :: rest
    else if CO.lt k' k then (k', v') :: mapUpsert combine rest k v
    else (k', combine v' v) :: rest

/-- Modelled from the spec: the map-based `SparseMatrixBuilder::add`.
The body of `add` shipped in SparseMatrix_impl.hpp (lines 377-381) belongs
to a vector-of-COO builder and does not match the declared map storage of
`SparseMatrixBuilder` (SparseMatrix.hpp lines 315-333); the map-based
`add` is not in src/.  The spec (section 4.2) prescribes "values are
summed for accumulate semantics (map-based builder keyed by (row,col)
pair)", which is what this definition does. -/
def mapAdd (m : List Entry) (i j : Nat) (v : ℚ) : List Entry :=
  mapUpsert (fun old new => old + new) m ⟨i, j⟩ v

/-- Fold a list of (row, col, value) triples into the builder map via
repeated `add`, starting from the default-constructed (empty) builder. -/
def buildAdd (ts : List (Nat × Nat × ℚ)) : List Entry :=
  ts.foldl (fun m t => mapAdd m t.1 t.2.1 t.2.2) []

/-- Association-list lookup on the builder map model. -/
def mapFind : List Entry → CO → Option ℚ
  | [], _ => none
  | (k', v') :: rest, k => if k' = k then some v' else mapFind rest k

/-- One coordinate triple of the vector-based simple builder
(`SparseMatrixBuilder< Scalar >::add` pushes `COO{ i, j, val }`,
SparseMatrix_impl.hpp line 380).  The definition of `struct COO` itself
is not in src/. -/
structure COO where
  row : Nat
  col : Nat
  value : ℚ
deriving DecidableEq, Repr

/-- `SparseMatrixBuilder::add` of the simple (vector-based) builder:
appends the triple to the accumulated vector. -/
def simpleAdd (values : List COO) (i j : Nat) (v : ℚ) : List COO :=
  values ++ [⟨i, j, v⟩]

/-- Modelled from the spec: the sort-and-deduplicate prefix of
`SparseMatrixBuilder::to_csr` (SparseMatrix_impl.hpp lines 392-395,
`std::sort` followed by `std::unique`).  `struct COO` and its comparison
operators are not in src/, so the net effect of sort+unique is taken
from the spec (section 4.2): entries are ordered by (row, col) and for
duplicate keys the "last value wins" (insert semantics of the simple
builder).  Realised by folding the adds, in order, into a sorted map
with overwrite-on-duplicate. -/
def sortUniqueLastWins (l : List COO) : List Entry :=
  l.foldl (fun acc e => mapUpsert (fun _ new => new) acc ⟨e.row, e.col⟩ e.value) []

/-- Write `v` into positions `start, start+1, ..., start+n-1`; models
`std::fill_n( curr_row + 1, n, i )` acting on the `row_ind` array viewed
as a function from index to stored value. -/
def fillN (f : Nat → Nat) (start n v : Nat) : Nat → Nat :=
  fun k => if start ≤ k ∧ k < start + n then v else f k

/-- The second pass of `conv< Scalar, std::map<CO,Scalar>, CSR<Scalar>
>::convert` (SparseMatrix_csr.hpp lines 79-97), identical to the second
pass of `SparseMatrixBuilder::to_csr` (SparseMatrix_impl.hpp lines
430-447).  `f` is the row-index array as a function, `p` the current
offset of `curr_row` from the array base (`row_pos`), `i` the loop
counter, and the list holds the row of each remaining entry.  On each
entry: if its row equals `p` the loop just advances `i`; otherwise it
back-fills `row_ind[p+1 .. row]` with `i` and moves `curr_row`. -/
def buildRowInd : (Nat → Nat) → Nat → Nat → List Nat → (Nat → Nat)
  | f, _, _, [] => f
  | f, p, i, r :: rest =>
    if r = p then buildRowInd f p (i + 1) rest
    else buildRowInd (fillN f (p + 1) (r - p) i) r (i + 1) rest

/-- The committed CSR matrix: `rows_`, `nonzeros_`, and the three arrays
of `unmanaged::CSR` (SparseMatrix.hpp lines 54-63).  `row_ind_` has
`rows_ + 1` entries. -/
structure SparseMatrix where
  rows_ : Nat
  nonzeros_ : Nat
  values_ : List ℚ
  col_ind_ : List Nat
  row_ind_ : List Nat
deriving DecidableEq, Repr

/-- `conv< Scalar, std::map<CO,Scalar>, CSR<Scalar> >::convert`
(SparseMatrix_csr.hpp lines 43-105) on the sorted key-value list of the
builder map.  `rows := rbegin()->first.row_ + 2` (the last key has the
greatest row); the first pass copies column indices and values in map
order; the second pass is `buildRowInd` starting from `*curr_row = 0`
(remaining cells are uninitialised in C++ and never read before being
written, modelled as 0); finally `row_ind[rows-1] = size` and the matrix
is built with `rows - 1` rows.  Dereferencing `rbegin()` of an empty map
is undefined behaviour; the model uses row 0 in that case. -/
def convert (es : List Entry) : SparseMatrix :=
  let rows := ((es.getLast?.map fun e => e.1.row).getD 0) + 2
  let f0 := buildRowInd (fun _ => 0) 0 0 (es.map fun e => e.1.row)
  let f1 := fun k => if k = rows - 1 then es.length else f0 k
  { rows_ := rows - 1
    nonzeros_ := es.length
    values_ := es.map fun e => e.2
    col_ind_ := es.map fun e => e.1.col
    row_ind_ := (List.range rows).map f1 }

/-- `SparseMatrixBuilder< Scalar >::to_csr` (SparseMatrix_impl.hpp lines
383-453): sort + unique (see `sortUniqueLastWins`), then the same
compaction passes as `convert`. -/
def toCsr (l : List COO) : SparseMatrix :=
  convert (sortUniqueLastWins l)

/-- One iteration bound is consumed per loop round; `std::lower_bound`
halves `count` each round, so any `fuel > count` suffices and the
`fuel = 0` branch is unreachable from `lowerBound`. -/
def lowerBoundFuel (g : Nat → Nat) : Nat → Nat → Nat → Nat → Nat
  | 0, first, _, _ => first
  | fuel + 1, first, count, y =>
    if count = 0 then first
    else
      let step := count / 2
      let it := first + step
      if g it < y then lowerBoundFuel g fuel (it + 1) (count - (step + 1)) y
      else lowerBoundFuel g fuel first step y

/-- `std::lower_bound` over the index range `[first, first + count)` of
the array read through `g`: returns the first position whose value is
not less than `y` (the standard halving loop). -/
def lowerBound (g : Nat → Nat) (first count y : Nat) : Nat :=
  lowerBoundFuel g (count + 1) first count y

/-- `std::binary_search(first, last, y)`: `lb = lower_bound(...)`, then
`lb != last && !(y < *lb)`. -/
def binarySearch (g : Nat → Nat) (first last y : Nat) : Bool :=
  let lb := lowerBound g first (last - first) y
  decide (lb ≠ last) && ! decide (y < g lb)

/-- Value stored at index `k` of `col_ind_`. -/
def SparseMatrix.colAt (m : SparseMatrix) (k : Nat) : Nat :=
  m.col_ind_.getD k 0

/-- Value stored at index `k` of `row_ind_`. -/
def SparseMatrix.rowIndAt (m : SparseMatrix) (k : Nat) : Nat :=
  m.row_ind_.getD k 0

/-- `SparseMatrix< CSR<Scalar> >::exists` (SparseMatrix_csr.hpp lines
186-208) in release semantics: the `threshold` comparison promotes the
signed difference to the unsigned comparison `ptrdiff < 0u`, which is
never true, so the search is always `std::binary_search` over
`col_ind[row_ind[x] .. row_ind[x+1])`. -/
def SparseMatrix.exists_ (m : SparseMatrix) (x y : Nat) : Bool :=
  binarySearch m.colAt (m.rowIndAt x) (m.rowIndAt (x + 1)) y

/-- `SparseMatrix::exists` with its precondition `assert(x < rows() - 1)`
(SparseMatrix_csr.hpp line 190) modelled as a guard: `none` means the
assertion fires in a checked build.  `rows()` is a `std::size_t`; for the
matrices this claim concerns `rows_ ≥ 1`, so natural subtraction agrees
with the C++ value. -/
def SparseMatrix.existsChecked (m : SparseMatrix) (x y : Nat) : Option Bool :=
  if x < m.rows_ - 1 then some (m.exists_ x y) else none

/-- `CSR::row_ref::operator[]` (SparseMatrix_impl.hpp lines 118-140)
reached through `SparseMatrix::operator[]`, in release semantics:
`std::lower_bound` over the row's column slice, then the value at the
found position (undefined behaviour if the coordinate is an implicit
zero; the model returns whatever sits at the lower-bound position). -/
def SparseMatrix.rowColValue (m : SparseMatrix) (x c : Nat) : ℚ :=
  let lb := lowerBound m.colAt (m.rowIndAt x) (m.rowIndAt (x + 1) - m.rowIndAt x) c
  m.values_.getD lb 0

/-- `SparseMatrix< CSR<Scalar> >::operator[]` with its precondition
`assert(x < rows() - 1)` (SparseMatrix_csr.hpp line 214) modelled as a
guard: `some x` is the row reference for row `x`, `none` means the
assertion fires in a checked build. -/
def SparseMatrix.opIndexChecked (m : SparseMatrix) (x : Nat) : Option Nat :=
  if x < m.rows_ - 1 then some x else none

/-! ## Order facts about `CO::operator<` -/

theorem CO.ltP_iff {a b : CO} :
    CO.ltP a b ↔ a.row < b.row ∨ (a.row = b.row ∧ a.col < b.col) := by
  unfold CO.ltP CO.lt
  by_cases h : a.row > b.row
  · simp only [if_pos h]
    constructor
    · intro hf; exact absurd hf (by simp)
    · intro hc; omega
  · simp only [if_neg h, Bool.or_eq_true, decide_eq_true_eq]
    omega

theorem CO.ltP_trans {a b c : CO} (h1 : CO.ltP a b) (h2 : CO.ltP b c) :
    CO.ltP a c := by
  rw [CO.ltP_iff] at h1 h2 ⊢
  omega

theorem CO.ltP_irrefl {a : CO} : ¬ CO.ltP a a := by
  rw [CO.ltP_iff]; omega

theorem CO.ne_of_ltP {a b : CO} (h : CO.ltP a b) : a ≠ b := by
  intro he; subst he; exact CO.ltP_irrefl h

theorem CO.eq_of_not_ltP {a b : CO} (h1 : ¬ CO.ltP a b) (h2 : ¬ CO.ltP b a) :
    a = b := by
  rw [CO.ltP_iff] at h1 h2
  cases a with
  | mk ar ac =>
    cases b with
    | mk br bc =>
      simp only [CO.mk.injEq]
      simp only at h1 h2
      omega

theorem CO.row_le_of_ltP {a b : CO} (h : CO.ltP a b) : a.row ≤ b.row := by
  rw [CO.ltP_iff] at h; omega

/-- The builder map's key-value list is strictly sorted by `CO::operator<`. -/
def SortedEntries (es : List Entry) : Prop :=
  es.Pairwise fun a b => CO.ltP a.1 b.1

/-! ## Lemmas about insertion into the builder map -/

theorem mapUpsert_ne_nil (f : ℚ → ℚ → ℚ) (m : List Entry) (k : CO) (v : ℚ) :
    mapUpsert f m k v ≠ [] := by
  match m with
  | [] => simp [mapUpsert]
  | (k', v') :: rest =>
    unfold mapUpsert
    split
    · simp
    · split <;> simp

theorem mapUpsert_mem_key (f : ℚ → ℚ → ℚ) (m : List Entry) (k : CO) (v : ℚ) :
    ∀ e ∈ mapUpsert f m k v, e.1 = k ∨ e.1 ∈ m.map Prod.fst := by
  induction m with
  | nil =>
    intro e he
    simp only [mapUpsert, List.mem_singleton] at he
    simp [he]
  | cons p rest ih =>
    intro e he
    unfold mapUpsert at he
    split at he
    · rw [List.mem_cons, List.mem_cons] at he
      rcases he with he | he | he
      · simp [he]
      · right; rw [he]; simp
      · right; simp only [List.map_cons, List.mem_cons]
        exact Or.inr (List.mem_map.mpr ⟨e, he, rfl⟩)
    · split at he
      · rw [List.mem_cons] at he
        rcases he with he | he
        · right; rw [he]; simp
        · rcases ih e he with h | h
          · exact Or.inl h
          · right; simp only [List.map_cons, List.mem_cons]; exact Or.inr h
      · rw [List.mem_cons] at he
        rcases he with he | he
        · right; rw [he]; simp
        · right; simp only [List.map_cons, List.mem_cons]
          exact Or.inr (List.mem_map.mpr ⟨e, he, rfl⟩)

theorem mapUpsert_sorted (f : ℚ → ℚ → ℚ) (m : List Entry) (k : CO) (v : ℚ)
    (hs : SortedEntries m) : SortedEntries (mapUpsert f m k v) := by
  induction m with
  | nil => simp [mapUpsert, SortedEntries]
  | cons p rest ih =>
    rw [SortedEntries, List.pairwise_cons] at hs
    obtain ⟨hp, hrest⟩ := hs
    unfold mapUpsert
    split
    · next hlt =>
      rw [SortedEntries, List.pairwise_cons]
      refine ⟨?_, List.pairwise_cons.mpr ⟨hp, hrest⟩⟩
      intro b hb
      rw [List.mem_cons] at hb
      rcases hb with hb | hb
      · rw [hb]; exact hlt
      · exact CO.ltP_trans hlt (hp b hb)
    · split
      · next hgt =>
        rw [SortedEntries, List.pairwise_cons]
        refine ⟨?_, ih hrest⟩
        intro b hb
        rcases mapUpsert_mem_key f rest k v b hb with h | h
        · rw [h]; exact hgt
        · obtain ⟨e, he, hek⟩ := List.mem_map.mp h
          rw [← hek]; exact hp e he
      · next h1 h2 =>
        have : k = p.1 := CO.eq_of_not_ltP (fun h => h1 h) (fun h => h2 h)
        rw [SortedEntries, List.pairwise_cons]
        exact ⟨fun b hb => hp b hb, hrest⟩

theorem mapFind_eq_none_of_not_mem (m : List Entry) (k : CO)
    (h : k ∉ m.map Prod.fst) : mapFind m k = none := by
  induction m with
  | nil => rfl
  | cons p rest ih =>
    simp only [List.map_cons, List.mem_cons] at h
    push_neg at h
    unfold mapFind
    rw [if_neg (fun he => h.1 he.symm)]
    exact ih h.2

theorem mapFind_upsert_self (f : ℚ → ℚ → ℚ) (m : List Entry) (k : CO) (v : ℚ)
    (hs : SortedEntries m) :
    mapFind (mapUpsert f m k v) k =
      some (match mapFind m k with | none => v | some w => f w v) := by
  induction m with
  | nil => simp [mapUpsert, mapFind]
  | cons p rest ih =>
    rw [SortedEntries, List.pairwise_cons] at hs
    obtain ⟨hp, hrest⟩ := hs
    unfold mapUpsert
    split
    · next hlt =>
      have hne : mapFind (p :: rest) k = none := by
        apply mapFind_eq_none_of_not_mem
        intro hmem
        simp only [List.map_cons, List.mem_cons] at hmem
        rcases hmem with h | h
        · exact CO.ne_of_ltP hlt h
        · obtain ⟨e, he, hek⟩ := List.mem_map.mp h
          exact CO.ne_of_ltP (CO.ltP_trans hlt (hp e he)) hek.symm
      rw [hne]
      simp [mapFind]
    · split
      · next hgt =>
        have hpk : p.1 ≠ k := CO.ne_of_ltP hgt
        simp only [mapFind, if_neg hpk]
        exact ih hrest
      · next h1 h2 =>
        have hk : k = p.1 := CO.eq_of_not_ltP (fun h => h1 h) (fun h => h2 h)
        simp [mapFind, hk]

theorem mapFind_upsert_other (f : ℚ → ℚ → ℚ) (m : List Entry) (k k₂ : CO) (v : ℚ)
    (h : k₂ ≠ k) : mapFind (mapUpsert f m k v) k₂ = mapFind m k₂ := by
  have hne : ¬ (k = k₂) := fun he => h he.symm
  induction m with
  | nil =>
    simp only [mapUpsert, mapFind]
    rw [if_neg hne]
  | cons p rest ih =>
    unfold mapUpsert
    split
    · show (if k = k₂ then some v else mapFind (p :: rest) k₂) = mapFind (p :: rest) k₂
      rw [if_neg hne]
    · split
      · show (if p.1 = k₂ then some p.2 else mapFind (mapUpsert f rest k v) k₂) =
          mapFind (p :: rest) k₂
        by_cases hp : p.1 = k₂
        · rw [if_pos hp]
          show _ = (if p.1 = k₂ then some p.2 else mapFind rest k₂)
          rw [if_pos hp]
        · rw [if_neg hp, ih]
          show _ = (if p.1 = k₂ then some p.2 else mapFind rest k₂)
          rw [if_neg hp]
      · next h1 h2 =>
        have hk : k = p.1 := CO.eq_of_not_ltP (fun hx => h1 hx) (fun hx => h2 hx)
        have hp : ¬ (p.1 = k₂) := fun he => h (he ▸ hk).symm
        show (if p.1 = k₂ then some (f p.2 v) else mapFind rest k₂) = mapFind (p :: rest) k₂
        rw [if_neg hp]
        show _ = (if p.1 = k₂ then some p.2 else mapFind rest k₂)
        rw [if_neg hp]

/-! ## Folding a sequence of `add` calls into the builder map -/

/-- Folding a list of key-value pairs into the builder map by repeated
`mapUpsert`; both builders' `add` sequences reduce to this. -/
def upsertAll (f : ℚ → ℚ → ℚ) (ps : List Entry) (acc : List Entry) : List Entry :=
  ps.foldl (fun m p => mapUpsert f m p.1 p.2) acc

theorem buildAdd_eq_upsertAll (ts : List (Nat × Nat × ℚ)) :
    buildAdd ts =
      upsertAll (fun old new => old + new)
        (ts.map fun t => (⟨t.1, t.2.1⟩, t.2.2)) [] := by
  simp [buildAdd, upsertAll, mapAdd, List.foldl_map]

theorem sortUniqueLastWins_eq_upsertAll (l : List COO) :
    sortUniqueLastWins l =
      upsertAll (fun _ new => new)
        (l.map fun e => (⟨e.row, e.col⟩, e.value)) [] := by
  simp [sortUniqueLastWins, upsertAll, List.foldl_map]

theorem upsertAll_sorted (f : ℚ → ℚ → ℚ) (ps : List Entry) :
    ∀ acc, SortedEntries acc → SortedEntries (upsertAll f ps acc) := by
  induction ps with
  | nil => intro acc h; exact h
  | cons p rest ih =>
    intro acc h
    exact ih (mapUpsert f acc p.1 p.2) (mapUpsert_sorted f acc p.1 p.2 h)

theorem upsertAll_ne_nil (f : ℚ → ℚ → ℚ) (ps : List Entry) :
    ∀ acc, acc ≠ [] ∨ ps ≠ [] → upsertAll f ps acc ≠ [] := by
  induction ps with
  | nil =>
    intro acc h
    rcases h with h | h
    · exact h
    · exact absurd rfl h
  | cons p rest ih =>
    intro acc _
    exact ih (mapUpsert f acc p.1 p.2) (Or.inl (mapUpsert_ne_nil f acc p.1 p.2))

theorem upsertAll_find_not_mem (f : ℚ → ℚ → ℚ) (ps : List Entry) (k : CO)
    (h : k ∉ ps.map Prod.fst) :
    ∀ acc, mapFind (upsertAll f ps acc) k = mapFind acc k := by
  induction ps with
  | nil => intro acc; rfl
  | cons p rest ih =>
    intro acc
    simp only [List.map_cons, List.mem_cons] at h
    push_neg at h
    show mapFind (upsertAll f rest (mapUpsert f acc p.1 p.2)) k = mapFind acc k
    rw [ih h.2 (mapUpsert f acc p.1 p.2)]
    exact mapFind_upsert_other f acc p.1 k p.2 h.1

theorem upsertAll_find_distinct (f : ℚ → ℚ → ℚ) (ps : List Entry) (k : CO) (v : ℚ)
    (hnd : (ps.map Prod.fst).Nodup) (hmem : (k, v) ∈ ps) :
    ∀ acc, SortedEntries acc → k ∉ acc.map Prod.fst →
      mapFind (upsertAll f ps acc) k = some v := by
  induction ps with
  | nil => cases hmem
  | cons p rest ih =>
    intro acc hacc hk
    simp only [List.map_cons, List.nodup_cons] at hnd
    rw [List.mem_cons] at hmem
    rcases hmem with hmem | hmem
    · subst hmem
      show mapFind (upsertAll f rest (mapUpsert f acc k v)) k = some v
      rw [upsertAll_find_not_mem f rest k hnd.1]
      rw [mapFind_upsert_self f acc k v hacc]
      rw [mapFind_eq_none_of_not_mem acc k hk]
    · have hkrest : k ∈ rest.map Prod.fst :=
        List.mem_map.mpr ⟨(k, v), hmem, rfl⟩
      have hkp : k ≠ p.1 := fun he => hnd.1 (he ▸ hkrest)
      show mapFind (upsertAll f rest (mapUpsert f acc p.1 p.2)) k = some v
      apply ih hnd.2 hmem
      · exact mapUpsert_sorted f acc p.1 p.2 hacc
      · intro hcon
        obtain ⟨e, he, hek⟩ := List.mem_map.mp hcon
        rcases mapUpsert_mem_key f acc p.1 p.2 e he with h | h
        · exact hkp (by rw [← hek, h])
        · rw [hek] at h
          exact hk h

/-- The value of the LAST occurrence of key `k` in the add sequence
`ps`, if any. -/
def lastVal : List Entry → CO → Option ℚ
  | [], _ => none
  | p :: rest, k =>
    match lastVal rest k with
    | some w => some w
    | none => if p.1 = k then some p.2 else none

theorem upsertAll_find_last (ps : List Entry) (k : CO) :
    ∀ acc, SortedEntries acc →
      mapFind (upsertAll (fun _ new => new) ps acc) k =
        match lastVal ps k with
        | some w => some w
        | none => mapFind acc k := by
  induction ps with
  | nil => intro acc _; rfl
  | cons p rest ih =>
    intro acc hacc
    show mapFind (upsertAll _ rest (mapUpsert _ acc p.1 p.2)) k = _
    rw [ih (mapUpsert (fun _ new => new) acc p.1 p.2)
      (mapUpsert_sorted _ acc p.1 p.2 hacc)]
    show (match lastVal rest k with
      | some w => some w
      | none => mapFind (mapUpsert (fun _ new => new) acc p.1 p.2) k) = _
    cases hl : lastVal rest k with
    | some w => simp [lastVal, hl]
    | none =>
      simp only [lastVal, hl]
      by_cases hp : p.1 = k
      · rw [hp, mapFind_upsert_self _ acc k p.2 hacc, if_pos rfl]
        cases mapFind acc k <;> rfl
      · rw [mapFind_upsert_other _ acc p.1 k p.2 (fun he => hp he.symm), if_neg hp]

/-! ## Characterisation of the committed row-offset array -/

/-- The greatest row of the sorted builder map, read as the converter
does (`rbegin()->first.row_`): the row of the last key (0 if empty). -/
def maxRow (es : List Entry) : Nat :=
  ((es.getLast?.map fun e => e.1.row).getD 0)

/-- Number of entries whose row is below `k`. -/
def rowCount (es : List Entry) (k : Nat) : Nat :=
  es.countP fun e => decide (e.1.row < k)

theorem maxRow_cons_of_ne_nil (a : Entry) (rest : List Entry) (h : rest ≠ []) :
    maxRow (a :: rest) = maxRow rest := by
  cases rest with
  | nil => exact absurd rfl h
  | cons b t =>
    unfold maxRow
    rw [List.getLast?_cons_cons]

theorem row_le_maxRow (es : List Entry) (hs : SortedEntries es) :
    ∀ e ∈ es, e.1.row ≤ maxRow es := by
  induction es with
  | nil => intro e he; cases he
  | cons a rest ih =>
    rw [SortedEntries, List.pairwise_cons] at hs
    obtain ⟨ha, hrest⟩ := hs
    intro e he
    rw [List.mem_cons] at he
    by_cases hr : rest = []
    · subst hr
      rcases he with he | he
      · subst he
        simp [maxRow]
      · cases he
    · rw [maxRow_cons_of_ne_nil a rest hr]
      rcases he with he | he
      · subst he
        have hlast : rest.getLast hr ∈ rest := List.getLast_mem hr
        have h1 : CO.ltP e.1 (rest.getLast hr).1 := ha _ hlast
        have h2 : (rest.getLast hr).1.row ≤ maxRow rest := by
          apply ih hrest
          exact hlast
        exact le_trans (CO.row_le_of_ltP h1) h2
      · exact ih hrest e he

theorem maxRow_mem (es : List Entry) (hne : es ≠ []) :
    ∃ e ∈ es, e.1.row = maxRow es := by
  refine ⟨es.getLast hne, List.getLast_mem hne, ?_⟩
  unfold maxRow
  rw [List.getLast?_eq_getLast es hne]
  rfl

theorem rowCount_succ (es : List Entry) (x : Nat) :
    rowCount es (x + 1) =
      rowCount es x + es.countP fun e => decide (e.1.row = x) := by
  induction es with
  | nil => rfl
  | cons a rest ih =>
    unfold rowCount at *
    rw [List.countP_cons, List.countP_cons, List.countP_cons, ih]
    by_cases h1 : a.1.row < x
    · have h2 : a.1.row < x + 1 := by omega
      have h3 : ¬ (a.1.row = x) := by omega
      simp [h1, h2, h3] <;> omega
    · by_cases h2 : a.1.row = x
      · have h3 : a.1.row < x + 1 := by omega
        simp [h1, h2, h3] <;> omega
      · have h3 : ¬ (a.1.row < x + 1) := by omega
        simp [h1, h2, h3] <;> omega

theorem rowCount_zero (es : List Entry) : rowCount es 0 = 0 := by
  unfold rowCount
  rw [List.countP_eq_zero]
  intro e _
  simp

theorem rowCount_mono (es : List Entry) {j k : Nat} (h : j ≤ k) :
    rowCount es j ≤ rowCount es k := by
  unfold rowCount
  apply List.countP_mono_left
  intro e _ he
  simp only [decide_eq_true_eq] at he ⊢
  omega

theorem rowCount_all (es : List Entry) (hs : SortedEntries es) (k : Nat)
    (hk : maxRow es < k) : rowCount es k = es.length := by
  unfold rowCount
  rw [List.countP_eq_length]
  intro e he
  have := row_le_maxRow es hs e he
  simp only [decide_eq_true_eq]
  omega

/-- Invariant of the converter's second pass (`buildRowInd`): starting at
offset `p` with loop counter `i` over the (weakly increasing) rows of the
remaining entries, a cell at or before `p` is never written, a cell `k`
with `p < k` that some remaining entry's row reaches is set to `i` plus
the number of remaining entries with row below `k`, and a cell beyond
every remaining row is never written. -/
theorem fillN_in (f : Nat → Nat) (s n v k : Nat) (h1 : s ≤ k) (h2 : k < s + n) :
    fillN f s n v k = v := by
  unfold fillN
  rw [if_pos ⟨h1, h2⟩]

theorem fillN_out (f : Nat → Nat) (s n v k : Nat) (h : ¬ (s ≤ k ∧ k < s + n)) :
    fillN f s n v k = f k := by
  unfold fillN
  rw [if_neg h]

theorem countP_lt_cons_of_lt (r : Nat) (rest : List Nat) (k : Nat) (h : r < k) :
    ((r :: rest).countP fun x => decide (x < k)) =
      (rest.countP fun x => decide (x < k)) + 1 := by
  rw [List.countP_cons]
  have hd : decide (r < k) = true := by simp [h]
  rw [hd]
  simp

theorem countP_lt_cons_of_ge (r : Nat) (rest : List Nat) (k : Nat) (h : k ≤ r) :
    ((r :: rest).countP fun x => decide (x < k)) =
      rest.countP fun x => decide (x < k) := by
  rw [List.countP_cons]
  have hd : decide (r < k) = false := by simp; omega
  rw [hd]
  simp

theorem buildRowInd_cons (f : Nat → Nat) (p i r : Nat) (rest : List Nat) :
    buildRowInd f p i (r :: rest) =
      if r = p then buildRowInd f p (i + 1) rest
      else buildRowInd (fillN f (p + 1) (r - p) i) r (i + 1) rest := rfl

theorem buildRowInd_eval (l : List Nat) (p i : Nat) (f : Nat → Nat)
    (hsort : l.Pairwise (· ≤ ·)) (hp : ∀ r ∈ l, p ≤ r) (k : Nat) :
    (k ≤ p → buildRowInd f p i l k = f k) ∧
    ((∃ r ∈ l, k ≤ r) → p < k →
      buildRowInd f p i l k = i + l.countP fun r => decide (r < k)) ∧
    ((∀ r ∈ l, r < k) → p < k → buildRowInd f p i l k = f k) := by
  induction l generalizing p i f with
  | nil =>
    refine ⟨fun _ => rfl, fun he _ => ?_, fun _ _ => rfl⟩
    obtain ⟨r, hr, _⟩ := he
    cases hr
  | cons r rest ih =>
    rw [List.pairwise_cons] at hsort
    obtain ⟨hr_le, hrest_sort⟩ := hsort
    have hpr : p ≤ r := hp r (List.mem_cons_self r rest)
    by_cases hrp : r = p
    · subst hrp
      have hrec := ih r (i + 1) f hrest_sort (fun x hx => hp x (List.mem_cons_of_mem r hx))
      rw [buildRowInd_cons, if_pos rfl]
      refine ⟨hrec.1, fun he hk => ?_, fun hall hk => ?_⟩
      · obtain ⟨r', hr', hkr'⟩ := he
        rw [List.mem_cons] at hr'
        have hr'rest : r' ∈ rest := by
          rcases hr' with h | h
          · exfalso; omega
          · exact h
        rw [hrec.2.1 ⟨r', hr'rest, hkr'⟩ hk]
        rw [countP_lt_cons_of_lt r rest k hk]
        omega
      · exact hrec.2.2 (fun x hx => hall x (List.mem_cons_of_mem r hx)) hk
    · have hpr' : p < r := by omega
      have hrec := ih r (i + 1) (fillN f (p + 1) (r - p) i) hrest_sort hr_le
      rw [buildRowInd_cons, if_neg hrp]
      refine ⟨fun hk => ?_, fun he hk => ?_, fun hall hk => ?_⟩
      · rw [hrec.1 (by omega)]
        exact fillN_out f (p + 1) (r - p) i k (by omega)
      · by_cases hkr : k ≤ r
        · rw [hrec.1 hkr]
          rw [fillN_in f (p + 1) (r - p) i k (by omega) (by omega)]
          rw [countP_lt_cons_of_ge r rest k hkr]
          have h2 : rest.countP (fun x => decide (x < k)) = 0 := by
            rw [List.countP_eq_zero]
            intro x hx
            have := hr_le x hx
            simp only [decide_eq_true_eq]
            omega
          omega
        · obtain ⟨r', hr', hkr'⟩ := he
          rw [List.mem_cons] at hr'
          have hr'rest : r' ∈ rest := by
            rcases hr' with h | h
            · exfalso; omega
            · exact h
          rw [hrec.2.1 ⟨r', hr'rest, hkr'⟩ (by omega)]
          rw [countP_lt_cons_of_lt r rest k (by omega)]
          omega
      · have hrk : r < k := hall r (List.mem_cons_self r rest)
        rw [hrec.2.2 (fun x hx => hall x (List.mem_cons_of_mem r hx)) hrk]
        exact fillN_out f (p + 1) (r - p) i k (by omega)

theorem getD_range_map (g : Nat → Nat) (n k : Nat) (h : k < n) :
    ((List.range n).map g).getD k 0 = g k := by
  rw [List.getD_eq_getElem?_getD]
  rw [List.getElem?_map, List.getElem?_range h]
  rfl

theorem convert_rows (es : List Entry) : (convert es).rows_ = maxRow es + 1 := rfl

theorem convert_nonzeros (es : List Entry) :
    (convert es).nonzeros_ = es.length := rfl

theorem rows_pairwise_le (es : List Entry) (hs : SortedEntries es) :
    (es.map fun e => e.1.row).Pairwise (· ≤ ·) := by
  rw [List.pairwise_map]
  exact hs.imp fun h => CO.row_le_of_ltP h

theorem convert_rowIndAt (es : List Entry) (hs : SortedEntries es)
    (hne : es ≠ []) (k : Nat) (hk : k ≤ maxRow es + 1) :
    (convert es).rowIndAt k = rowCount es k := by
  have hrange : (convert es).row_ind_ =
      (List.range (maxRow es + 2)).map
        (fun j => if j = maxRow es + 1 then es.length
          else buildRowInd (fun _ => 0) 0 0 (es.map fun e => e.1.row) j) := rfl
  unfold SparseMatrix.rowIndAt
  rw [hrange, getD_range_map _ _ _ (by omega)]
  by_cases hlast : k = maxRow es + 1
  · rw [if_pos hlast, hlast]
    rw [rowCount_all es hs _ (by omega)]
  · rw [if_neg hlast]
    have hklt : k ≤ maxRow es := by omega
    have heval := buildRowInd_eval (es.map fun e => e.1.row) 0 0 (fun _ => 0)
      (rows_pairwise_le es hs) (fun r _ => Nat.zero_le r) k
    by_cases hk0 : k = 0
    · subst hk0
      rw [heval.1 (le_refl 0)]
      rw [rowCount_zero]
    · obtain ⟨e, hemem, herow⟩ := maxRow_mem es hne
      have hmx : maxRow es ∈ es.map fun e => e.1.row :=
        List.mem_map.mpr ⟨e, hemem, herow⟩
      rw [heval.2.1 ⟨maxRow es, hmx, hklt⟩ (by omega)]
      rw [List.countP_map, Nat.zero_add]
      rfl

/-! ## The entries of one row form a contiguous sorted slice -/

/-- The entries of row `x`, in map order. -/
def rowEntries (es : List Entry) (x : Nat) : List Entry :=
  es.filter fun e => decide (e.1.row = x)

theorem sorted_split (es : List Entry) (hs : SortedEntries es) (x : Nat) :
    es = (es.filter fun e => decide (e.1.row < x)) ++
      rowEntries es x ++ (es.filter fun e => decide (x < e.1.row)) := by
  induction es with
  | nil => rfl
  | cons a rest ih =>
    rw [SortedEntries, List.pairwise_cons] at hs
    obtain ⟨ha, hsr⟩ := hs
    have hrest_ge : ∀ b ∈ rest, a.1.row ≤ b.1.row :=
      fun b hb => CO.row_le_of_ltP (ha b hb)
    have ihr := ih hsr
    unfold rowEntries at ihr ⊢
    rcases Nat.lt_trichotomy a.1.row x with hlt | heq | hgt
    · rw [List.filter_cons_of_pos (by simp [hlt]),
        List.filter_cons_of_neg (by simp; omega),
        List.filter_cons_of_neg (by simp; omega)]
      simp only [List.cons_append]
      exact congrArg (a :: ·) ihr
    · have h1 : rest.filter (fun e => decide (e.1.row < x)) = [] := by
        rw [List.filter_eq_nil_iff]
        intro b hb
        have := hrest_ge b hb
        simp
        omega
      rw [List.filter_cons_of_neg (by simp; omega),
        List.filter_cons_of_pos (by simp [heq]),
        List.filter_cons_of_neg (by simp; omega)]
      rw [h1] at ihr ⊢
      simp only [List.nil_append, List.cons_append]
      exact congrArg (a :: ·) ihr
    · have h1 : rest.filter (fun e => decide (e.1.row < x)) = [] := by
        rw [List.filter_eq_nil_iff]
        intro b hb
        have := hrest_ge b hb
        simp
        omega
      have h2 : rest.filter (fun e => decide (e.1.row = x)) = [] := by
        rw [List.filter_eq_nil_iff]
        intro b hb
        have := hrest_ge b hb
        simp
        omega
      rw [List.filter_cons_of_neg (by simp; omega),
        List.filter_cons_of_neg (by simp; omega),
        List.filter_cons_of_pos (by simp [hgt])]
      rw [h1, h2] at ihr ⊢
      simp only [List.nil_append] at ihr ⊢
      exact congrArg (a :: ·) ihr

theorem rowCount_add_rowEntries (es : List Entry) (x : Nat) :
    rowCount es x + (rowEntries es x).length = rowCount es (x + 1) := by
  rw [rowCount_succ]
  unfold rowEntries
  rw [List.countP_eq_length_filter]

theorem filter_lt_length (es : List Entry) (x : Nat) :
    (es.filter fun e => decide (e.1.row < x)).length = rowCount es x := by
  rw [rowCount, List.countP_eq_length_filter]

theorem getD_append_skip {α : Type} (l1 l2 : List α) (j : Nat) (d : α) :
    (l1 ++ l2).getD (l1.length + j) d = l2.getD j d := by
  induction l1 with
  | nil => simp
  | cons a t ih =>
    rw [List.cons_append, List.length_cons]
    rw [show t.length + 1 + j = (t.length + j) + 1 by omega]
    rw [List.getD_cons_succ]
    exact ih

theorem getD_append_keep {α : Type} (l1 l2 : List α) (j : Nat) (d : α)
    (h : j < l1.length) : (l1 ++ l2).getD j d = l1.getD j d := by
  induction l1 generalizing j with
  | nil => cases h
  | cons a t ih =>
    cases j with
    | zero => rfl
    | succ j' =>
      simp only [List.length_cons] at h
      exact ih j' (by omega)

theorem convert_colAt_slice (es : List Entry) (hs : SortedEntries es)
    (x j : Nat) (hj : j < (rowEntries es x).length) :
    (convert es).colAt (rowCount es x + j) =
      ((rowEntries es x).map fun e => e.1.col).getD j 0 := by
  have hmap : (convert es).col_ind_ =
      ((es.filter fun e => decide (e.1.row < x)).map fun e => e.1.col) ++
      (((rowEntries es x).map fun e => e.1.col) ++
        ((es.filter fun e => decide (x < e.1.row)).map fun e => e.1.col)) := by
    show (es.map fun e => e.1.col) = _
    conv_lhs => rw [sorted_split es hs x]
    rw [List.map_append, List.map_append, List.append_assoc]
  unfold SparseMatrix.colAt
  rw [hmap]
  have hlen : ((es.filter fun e => decide (e.1.row < x)).map
      fun e => e.1.col).length = rowCount es x := by
    rw [List.length_map, filter_lt_length]
  rw [← hlen, getD_append_skip]
  exact getD_append_keep _ _ _ _ (by rw [List.length_map]; exact hj)

theorem convert_valAt_slice (es : List Entry) (hs : SortedEntries es)
    (x j : Nat) (hj : j < (rowEntries es x).length) :
    (convert es).values_.getD (rowCount es x + j) 0 =
      ((rowEntries es x).map fun e => e.2).getD j 0 := by
  have hmap : (convert es).values_ =
      ((es.filter fun e => decide (e.1.row < x)).map fun e => e.2) ++
      (((rowEntries es x).map fun e => e.2) ++
        ((es.filter fun e => decide (x < e.1.row)).map fun e => e.2)) := by
    show (es.map fun e => e.2) = _
    conv_lhs => rw [sorted_split es hs x]
    rw [List.map_append, List.map_append, List.append_assoc]
  rw [hmap]
  have hlen : ((es.filter fun e => decide (e.1.row < x)).map
      fun e => e.2).length = rowCount es x := by
    rw [List.length_map, filter_lt_length]
  rw [← hlen, getD_append_skip]
  exact getD_append_keep _ _ _ _ (by rw [List.length_map]; exact hj)

theorem rowEntries_cols_pairwise (es : List Entry) (hs : SortedEntries es)
    (x : Nat) :
    (((rowEntries es x).map fun e => e.1.col)).Pairwise (· < ·) := by
  rw [List.pairwise_map]
  have hsub : (rowEntries es x).Sublist es := List.filter_sublist es
  have hpw : (rowEntries es x).Pairwise fun a b => CO.ltP a.1 b.1 :=
    hs.sublist hsub
  apply hpw.imp_of_mem
  intro a b hma hmb hab
  have hra : a.1.row = x := by
    have := List.of_mem_filter hma
    simpa using this
  have hrb : b.1.row = x := by
    have := List.of_mem_filter hmb
    simpa using this
  rw [CO.ltP_iff] at hab
  omega

/-! ## Correctness of binary search over a sorted slice -/

theorem lowerBoundFuel_succ (g : Nat → Nat) (fuel first count y : Nat) :
    lowerBoundFuel g (fuel + 1) first count y =
      if count = 0 then first
      else if g (first + count / 2) < y then
        lowerBoundFuel g fuel (first + count / 2 + 1) (count - (count / 2 + 1)) y
      else lowerBoundFuel g fuel first (count / 2) y := rfl

theorem lowerBoundFuel_spec (g : Nat → Nat) (y : Nat) :
    ∀ fuel count first, count < fuel →
      (∀ i j, first ≤ i → i ≤ j → j < first + count → g i ≤ g j) →
      first ≤ lowerBoundFuel g fuel first count y ∧
      lowerBoundFuel g fuel first count y ≤ first + count ∧
      (∀ i, first ≤ i → i < lowerBoundFuel g fuel first count y → g i < y) ∧
      (lowerBoundFuel g fuel first count y < first + count →
        y ≤ g (lowerBoundFuel g fuel first count y)) := by
  intro fuel
  induction fuel with
  | zero => intro count first h; omega
  | succ fuel ih =>
    intro count first hcount hmono
    by_cases hc0 : count = 0
    · rw [show lowerBoundFuel g (fuel + 1) first count y = first by
        rw [lowerBoundFuel_succ, if_pos hc0]]
      refine ⟨le_refl _, by omega, fun i h1 h2 => absurd h2 (by omega), by omega⟩
    · have hstep : count / 2 < count := by omega
      by_cases hg : g (first + count / 2) < y
      · have heq : lowerBoundFuel g (fuel + 1) first count y =
            lowerBoundFuel g fuel (first + count / 2 + 1)
              (count - (count / 2 + 1)) y := by
          rw [lowerBoundFuel_succ, if_neg hc0, if_pos hg]
        have hrec := ih (count - (count / 2 + 1)) (first + count / 2 + 1)
          (by omega)
          (fun i j h1 h2 h3 => hmono i j (by omega) h2 (by omega))
        rw [heq]
        refine ⟨by omega, by omega, fun i h1 h2 => ?_, by
          intro h
          exact hrec.2.2.2 (by omega)⟩
        by_cases hi : first + count / 2 + 1 ≤ i
        · exact hrec.2.2.1 i hi h2
        · have hile : i ≤ first + count / 2 := by omega
          calc g i ≤ g (first + count / 2) :=
                hmono i (first + count / 2) h1 hile (by omega)
            _ < y := hg
      · have heq : lowerBoundFuel g (fuel + 1) first count y =
            lowerBoundFuel g fuel first (count / 2) y := by
          rw [lowerBoundFuel_succ, if_neg hc0, if_neg hg]
        have hrec := ih (count / 2) first (by omega)
          (fun i j h1 h2 h3 => hmono i j h1 h2 (by omega))
        rw [heq]
        refine ⟨hrec.1, by omega, hrec.2.2.1, ?_⟩
        intro _
        by_cases hr : lowerBoundFuel g fuel first (count / 2) y <
            first + count / 2
        · exact hrec.2.2.2 hr
        · have : lowerBoundFuel g fuel first (count / 2) y = first + count / 2 := by
            omega
          rw [this]
          omega

theorem lowerBound_spec (g : Nat → Nat) (y first count : Nat)
    (hmono : ∀ i j, first ≤ i → i ≤ j → j < first + count → g i ≤ g j) :
    first ≤ lowerBound g first count y ∧
    lowerBound g first count y ≤ first + count ∧
    (∀ i, first ≤ i → i < lowerBound g first count y → g i < y) ∧
    (lowerBound g first count y < first + count →
      y ≤ g (lowerBound g first count y)) :=
  lowerBoundFuel_spec g y (count + 1) count first (by omega) hmono

theorem binarySearch_iff (g : Nat → Nat) (b e y : Nat) (hbe : b ≤ e)
    (hmono : ∀ i j, b ≤ i → i ≤ j → j < e → g i ≤ g j) :
    binarySearch g b e y = true ↔ ∃ i, b ≤ i ∧ i < e ∧ g i = y := by
  have hspec := lowerBound_spec g y b (e - b)
    (fun i j h1 h2 h3 => hmono i j h1 h2 (by omega))
  rw [show b + (e - b) = e by omega] at hspec
  unfold binarySearch
  constructor
  · intro h
    simp only [Bool.and_eq_true, decide_eq_true_eq, Bool.not_eq_eq_eq_not,
      Bool.not_true, decide_eq_false_iff_not, not_lt] at h
    obtain ⟨hne, hle⟩ := h
    refine ⟨lowerBound g b (e - b) y, hspec.1, by omega, ?_⟩
    have := hspec.2.2.2 (by omega)
    omega
  · intro ⟨i, hbi, hie, hgi⟩
    simp only [Bool.and_eq_true, decide_eq_true_eq, Bool.not_eq_eq_eq_not,
      Bool.not_true, decide_eq_false_iff_not, not_lt]
    have hlb_le : lowerBound g b (e - b) y ≤ i := by
      by_contra hcon
      push_neg at hcon
      have := hspec.2.2.1 i hbi hcon
      omega
    constructor
    · intro heq
      have := hspec.2.2.1 i hbi (by omega)
      omega
    · have h1 : g (lowerBound g b (e - b) y) ≤ g i :=
        hmono _ i hspec.1 hlb_le hie
      have h2 := hspec.2.2.2 (by omega)
      omega

theorem lowerBound_exact (g : Nat → Nat) (b e y i0 : Nat)
    (hstrict : ∀ i j, b ≤ i → i < j → j < e → g i < g j)
    (hb : b ≤ i0) (hie : i0 < e) (hy : g i0 = y) :
    lowerBound g b (e - b) y = i0 := by
  have hmono : ∀ i j, b ≤ i → i ≤ j → j < b + (e - b) → g i ≤ g j := by
    intro i j h1 h2 h3
    rcases Nat.eq_or_lt_of_le h2 with h | h
    · rw [h]
    · exact le_of_lt (hstrict i j h1 h (by omega))
  have hspec := lowerBound_spec g y b (e - b) hmono
  rw [show b + (e - b) = e by omega] at hspec
  have hle : lowerBound g b (e - b) y ≤ i0 := by
    by_contra hcon
    push_neg at hcon
    have := hspec.2.2.1 i0 hb hcon
    omega
  rcases Nat.eq_or_lt_of_le hle with h | h
  · exact h
  · exfalso
    have h1 := hspec.2.2.2 (by omega)
    have h2 := hstrict _ i0 hspec.1 h hie
    omega

/-! ## Lookup correctness on the committed matrix -/

theorem convert_colAt_strict (es : List Entry) (hs : SortedEntries es)
    (x : Nat) :
    ∀ i j, rowCount es x ≤ i → i < j → j < rowCount es (x + 1) →
      (convert es).colAt i < (convert es).colAt j := by
  intro i j hbi hij hje
  have hlen := rowCount_add_rowEntries es x
  have hi' : i - rowCount es x < (rowEntries es x).length := by omega
  have hj' : j - rowCount es x < (rowEntries es x).length := by omega
  rw [show i = rowCount es x + (i - rowCount es x) by omega,
    convert_colAt_slice es hs x _ hi']
  rw [show j = rowCount es x + (j - rowCount es x) by omega,
    convert_colAt_slice es hs x _ hj']
  have hpw := rowEntries_cols_pairwise es hs x
  rw [List.pairwise_iff_get] at hpw
  have hi'' : i - rowCount es x < ((rowEntries es x).map fun e => e.1.col).length := by
    rw [List.length_map]; exact hi'
  have hj'' : j - rowCount es x < ((rowEntries es x).map fun e => e.1.col).length := by
    rw [List.length_map]; exact hj'
  rw [List.getD_eq_getElem _ _ hi'', List.getD_eq_getElem _ _ hj'']
  exact hpw ⟨i - rowCount es x, hi''⟩ ⟨j - rowCount es x, hj''⟩ (by simp; omega)

theorem convert_colAt_mono (es : List Entry) (hs : SortedEntries es)
    (x : Nat) :
    ∀ i j, rowCount es x ≤ i → i ≤ j → j < rowCount es (x + 1) →
      (convert es).colAt i ≤ (convert es).colAt j := by
  intro i j h1 h2 h3
  rcases Nat.eq_or_lt_of_le h2 with h | h
  · rw [h]
  · exact le_of_lt (convert_colAt_strict es hs x i j h1 h h3)

theorem mem_rowEntries_iff (es : List Entry) (x y : Nat) (v : ℚ) :
    ((⟨x, y⟩, v) : Entry) ∈ rowEntries es x ↔ ((⟨x, y⟩, v) : Entry) ∈ es := by
  unfold rowEntries
  rw [List.mem_filter]
  simp

theorem convert_exists_iff (es : List Entry) (hs : SortedEntries es)
    (hne : es ≠ []) (x y : Nat) (hx : x ≤ maxRow es) :
    (convert es).exists_ x y = true ↔ ∃ v, ((⟨x, y⟩, v) : Entry) ∈ es := by
  unfold SparseMatrix.exists_
  rw [convert_rowIndAt es hs hne x (by omega),
    convert_rowIndAt es hs hne (x + 1) (by omega)]
  rw [binarySearch_iff _ _ _ y (rowCount_mono es (by omega))
    (convert_colAt_mono es hs x)]
  constructor
  · intro ⟨i, hbi, hie, hgi⟩
    have hlen := rowCount_add_rowEntries es x
    have hi' : i - rowCount es x < (rowEntries es x).length := by omega
    rw [show i = rowCount es x + (i - rowCount es x) by omega,
      convert_colAt_slice es hs x _ hi'] at hgi
    have hi'' : i - rowCount es x <
        ((rowEntries es x).map fun e => e.1.col).length := by
      rw [List.length_map]; exact hi'
    rw [List.getD_eq_getElem _ _ hi''] at hgi
    have hmem : ((rowEntries es x).map fun e => e.1.col)[i - rowCount es x] ∈
        ((rowEntries es x).map fun e => e.1.col) := List.getElem_mem hi''
    rw [hgi] at hmem
    obtain ⟨en, hen, heny⟩ := List.mem_map.mp hmem
    have hrow : en.1.row = x := by
      have := List.of_mem_filter hen
      simpa using this
    have hes : en ∈ es := List.mem_of_mem_filter hen
    refine ⟨en.2, ?_⟩
    have hkey : en.1 = (⟨x, y⟩ : CO) := by
      cases hk : en.1 with
      | mk kr kc =>
        rw [hk] at hrow heny
        simp at hrow heny
        simp [hrow, heny]
    have : en = ((⟨x, y⟩, en.2) : Entry) := by
      rw [← hkey]
    rw [← this]
    exact hes
  · intro ⟨v, hv⟩
    have hmemr : ((⟨x, y⟩, v) : Entry) ∈ rowEntries es x :=
      (mem_rowEntries_iff es x y v).mpr hv
    obtain ⟨⟨j, hj⟩, hget⟩ := List.mem_iff_get.mp hmemr
    have hlen := rowCount_add_rowEntries es x
    refine ⟨rowCount es x + j, by omega, by omega, ?_⟩
    rw [convert_colAt_slice es hs x j hj]
    have hj' : j < ((rowEntries es x).map fun e => e.1.col).length := by
      rw [List.length_map]; exact hj
    rw [List.getD_eq_getElem _ _ hj']
    rw [List.getElem_map]
    rw [show (rowEntries es x)[j] = (rowEntries es x).get ⟨j, hj⟩ from rfl, hget]

theorem convert_rowColValue_eq (es : List Entry) (hs : SortedEntries es)
    (hne : es ≠ []) (x y : Nat) (v : ℚ) (hx : x ≤ maxRow es)
    (hmem : ((⟨x, y⟩, v) : Entry) ∈ es) :
    (convert es).rowColValue x y = v := by
  unfold SparseMatrix.rowColValue
  rw [convert_rowIndAt es hs hne x (by omega),
    convert_rowIndAt es hs hne (x + 1) (by omega)]
  have hmemr : ((⟨x, y⟩, v) : Entry) ∈ rowEntries es x :=
    (mem_rowEntries_iff es x y v).mpr hmem
  obtain ⟨⟨j, hj⟩, hget⟩ := List.mem_iff_get.mp hmemr
  have hlen := rowCount_add_rowEntries es x
  have hcol : (convert es).colAt (rowCount es x + j) = y := by
    rw [convert_colAt_slice es hs x j hj]
    have hj' : j < ((rowEntries es x).map fun e => e.1.col).length := by
      rw [List.length_map]; exact hj
    rw [List.getD_eq_getElem _ _ hj', List.getElem_map]
    rw [show (rowEntries es x)[j] = (rowEntries es x).get ⟨j, hj⟩ from rfl, hget]
  rw [lowerBound_exact _ (rowCount es x) (rowCount es (x + 1)) y
    (rowCount es x + j) (convert_colAt_strict es hs x) (by omega) (by omega) hcol]
  rw [convert_valAt_slice es hs x j hj]
  have hj' : j < ((rowEntries es x).map fun e => e.2).length := by
    rw [List.length_map]; exact hj
  rw [List.getD_eq_getElem _ _ hj', List.getElem_map]
  rw [show (rowEntries es x)[j] = (rowEntries es x).get ⟨j, hj⟩ from rfl, hget]

theorem mapFind_eq_some_iff_mem (m : List Entry) (hs : SortedEntries m)
    (k : CO) (v : ℚ) : mapFind m k = some v ↔ (k, v) ∈ m := by
  induction m with
  | nil => simp [mapFind]
  | cons p rest ih =>
    rw [SortedEntries, List.pairwise_cons] at hs
    obtain ⟨hp, hrest⟩ := hs
    by_cases hk : p.1 = k
    · have hnr : (k, v) ∉ rest := by
        intro hmem
        have := hp (k, v) hmem
        rw [hk] at this
        exact CO.ltP_irrefl this
      show (if p.1 = k then some p.2 else mapFind rest k) = some v ↔ _
      rw [if_pos hk, List.mem_cons]
      constructor
      · intro h
        left
        have : p.2 = v := by injection h
        rw [← hk, ← this]
      · intro h
        rcases h with h | h
        · rw [← h]
        · exact absurd h hnr
    · show (if p.1 = k then some p.2 else mapFind rest k) = some v ↔ _
      rw [if_neg hk, List.mem_cons, ih hrest]
      constructor
      · exact Or.inr
      · intro h
        rcases h with h | h
        · exfalso
          apply hk
          rw [← h]
        · exact h

theorem buildAdd_sorted (ts : List (Nat × Nat × ℚ)) :
    SortedEntries (buildAdd ts) := by
  rw [buildAdd_eq_upsertAll]
  exact upsertAll_sorted _ _ [] List.Pairwise.nil

theorem buildAdd_ne_nil (ts : List (Nat × Nat × ℚ)) (h : ts ≠ []) :
    buildAdd ts ≠ [] := by
  rw [buildAdd_eq_upsertAll]
  apply upsertAll_ne_nil
  right
  simpa using h

theorem buildAdd_find_mem (ts : List (Nat × Nat × ℚ))
    (hnd : (ts.map fun t => (⟨t.1, t.2.1⟩ : CO)).Nodup)
    (t : Nat × Nat × ℚ) (ht : t ∈ ts) :
    mapFind (buildAdd ts) ⟨t.1, t.2.1⟩ = some t.2.2 := by
  rw [buildAdd_eq_upsertAll]
  apply upsertAll_find_distinct
  · rw [List.map_map]
    exact hnd
  · exact List.mem_map.mpr ⟨t, ht, rfl⟩
  · exact List.Pairwise.nil
  · simp

theorem buildAdd_find_none (ts : List (Nat × Nat × ℚ)) (k : CO)
    (h : ∀ t ∈ ts, (⟨t.1, t.2.1⟩ : CO) ≠ k) :
    mapFind (buildAdd ts) k = none := by
  rw [buildAdd_eq_upsertAll]
  rw [upsertAll_find_not_mem]
  · rfl
  · intro hmem
    rw [List.map_map] at hmem
    obtain ⟨t, ht, hkt⟩ := List.mem_map.mp hmem
    exact h t ht hkt

/-- Claim C2: for every nonempty finite set of (row, col, value) triples
with pairwise-distinct keys, adding them all through the map-based
builder and committing via `convert` yields a matrix in which `exists`
answers true and `matrix[r][c]` (the row-reference subscript) returns the
inserted value for every inserted triple, while `exists` answers false
for every in-bounds (row below `rows()`) coordinate that was never
inserted.  (Committing an empty builder dereferences `rbegin()` of an
empty map, which is undefined, hence the nonemptiness hypothesis.) -/
theorem C2_csr_roundtrip (ts : List (Nat × Nat × ℚ)) (hne : ts ≠ [])
    (hnd : (ts.map fun t => (⟨t.1, t.2.1⟩ : CO)).Nodup) :
    (∀ t ∈ ts,
      (convert (buildAdd ts)).exists_ t.1 t.2.1 = true ∧
      (convert (buildAdd ts)).rowColValue t.1 t.2.1 = t.2.2) ∧
    (∀ r c, r < (convert (buildAdd ts)).rows_ →
      (∀ val : ℚ, (r, c, val) ∉ ts) →
      (convert (buildAdd ts)).exists_ r c = false) := by
  have hs := buildAdd_sorted ts
  have hne' := buildAdd_ne_nil ts hne
  constructor
  · intro t ht
    have hfind := buildAdd_find_mem ts hnd t ht
    have hmem : ((⟨t.1, t.2.1⟩, t.2.2) : Entry) ∈ buildAdd ts :=
      (mapFind_eq_some_iff_mem _ hs _ _).mp hfind
    have hrow : t.1 ≤ maxRow (buildAdd ts) :=
      row_le_maxRow _ hs _ hmem
    exact ⟨(convert_exists_iff _ hs hne' _ _ hrow).mpr ⟨t.2.2, hmem⟩,
      convert_rowColValue_eq _ hs hne' _ _ _ hrow hmem⟩
  · intro r c hr hnot
    rw [convert_rows] at hr
    cases hex : (convert (buildAdd ts)).exists_ r c
    · rfl
    · exfalso
      obtain ⟨v, hv⟩ := (convert_exists_iff _ hs hne' r c (by omega)).mp hex
      have hfind : mapFind (buildAdd ts) ⟨r, c⟩ = some v :=
        (mapFind_eq_some_iff_mem _ hs _ _).mpr hv
      by_cases hkey : ∃ t ∈ ts, (⟨t.1, t.2.1⟩ : CO) = ⟨r, c⟩
      · obtain ⟨t, ht, hkt⟩ := hkey
        obtain ⟨a, b, vv⟩ := t
        simp only [CO.mk.injEq] at hkt
        obtain ⟨ha, hb⟩ := hkt
        subst ha
        subst hb
        exact hnot vv ht
      · push_neg at hkey
        rw [buildAdd_find_none ts ⟨r, c⟩ hkey] at hfind
        cases hfind

/-- Claim C2, witness: committing the two distinct-key triples (0,0,2)
and (1,3,5) gives a matrix where both entries are found with their
values and the never-inserted in-bounds coordinate (0,3) is absent. -/
theorem C2_csr_roundtrip_witness :
    (convert (buildAdd [(0, 0, (2 : ℚ)), (1, 3, 5)])).exists_ 1 3 = true ∧
    (convert (buildAdd [(0, 0, (2 : ℚ)), (1, 3, 5)])).rowColValue 1 3 = 5 ∧
    (convert (buildAdd [(0, 0, (2 : ℚ)), (1, 3, 5)])).exists_ 0 3 = false := by
  have h := C2_csr_roundtrip [(0, 0, (2 : ℚ)), (1, 3, 5)]
    (by decide) (by decide)
  refine ⟨(h.1 (1, 3, 5) (by simp)).1, (h.1 (1, 3, 5) (by simp)).2,
    h.2 0 3 (by decide) ?_⟩
  intro val hmem
  simp [Prod.ext_iff] at hmem

/-- Claim C8: every matrix committed from a non-empty builder satisfies
the CSR structural invariant: the row-offset array has `rows() + 1`
entries, starts at 0, is monotone non-decreasing, ends at `nonzeros()`,
and within each row's slice the stored column indices are strictly
ascending (hence contain no duplicate column). -/
theorem C8_csr_invariant (ts : List (Nat × Nat × ℚ)) (hne : ts ≠ []) :
    (convert (buildAdd ts)).row_ind_.length = (convert (buildAdd ts)).rows_ + 1 ∧
    (convert (buildAdd ts)).rowIndAt 0 = 0 ∧
    (∀ r, r < (convert (buildAdd ts)).rows_ →
      (convert (buildAdd ts)).rowIndAt r ≤ (convert (buildAdd ts)).rowIndAt (r + 1)) ∧
    (convert (buildAdd ts)).rowIndAt (convert (buildAdd ts)).rows_ =
      (convert (buildAdd ts)).nonzeros_ ∧
    (∀ r, r < (convert (buildAdd ts)).rows_ → ∀ i j,
      (convert (buildAdd ts)).rowIndAt r ≤ i → i < j →
      j < (convert (buildAdd ts)).rowIndAt (r + 1) →
      (convert (buildAdd ts)).colAt i < (convert (buildAdd ts)).colAt j) := by
  set m := convert (buildAdd ts) with hmdef
  have hs := buildAdd_sorted ts
  have hne' := buildAdd_ne_nil ts hne
  have hrows : m.rows_ = maxRow (buildAdd ts) + 1 := convert_rows _
  refine ⟨?_, ?_, ?_, ?_, ?_⟩
  · show ((List.range (maxRow (buildAdd ts) + 2)).map _).length = _
    rw [List.length_map, List.length_range, hrows]
  · rw [show m.rowIndAt 0 = rowCount (buildAdd ts) 0 from
      convert_rowIndAt _ hs hne' 0 (by omega)]
    exact rowCount_zero _
  · intro r hr
    rw [show m.rowIndAt r = rowCount (buildAdd ts) r from
      convert_rowIndAt _ hs hne' r (by omega)]
    rw [show m.rowIndAt (r + 1) = rowCount (buildAdd ts) (r + 1) from
      convert_rowIndAt _ hs hne' (r + 1) (by omega)]
    exact rowCount_mono _ (by omega)
  · rw [show m.rowIndAt m.rows_ = rowCount (buildAdd ts) m.rows_ from
      convert_rowIndAt _ hs hne' m.rows_ (by omega)]
    rw [hrows, rowCount_all _ hs _ (by omega)]
    rfl
  · intro r hr i j h1 h2 h3
    rw [show m.rowIndAt r = rowCount (buildAdd ts) r from
      convert_rowIndAt _ hs hne' r (by omega)] at h1
    rw [show m.rowIndAt (r + 1) = rowCount (buildAdd ts) (r + 1) from
      convert_rowIndAt _ hs hne' (r + 1) (by omega)] at h3
    exact convert_colAt_strict _ hs r i j h1 h2 h3

/-- Claim C8, witness: the invariant instantiated on the matrix committed
from the triples (0,0,2), (0,4,3), (2,1,5). -/
theorem C8_csr_invariant_witness :
    (convert (buildAdd [(0, 0, (2 : ℚ)), (0, 4, 3), (2, 1, 5)])).rowIndAt 0 = 0 ∧
    (convert (buildAdd [(0, 0, (2 : ℚ)), (0, 4, 3), (2, 1, 5)])).rowIndAt
      (convert (buildAdd [(0, 0, (2 : ℚ)), (0, 4, 3), (2, 1, 5)])).rows_ =
      (convert (buildAdd [(0, 0, (2 : ℚ)), (0, 4, 3), (2, 1, 5)])).nonzeros_ ∧
    (convert (buildAdd [(0, 0, (2 : ℚ)), (0, 4, 3), (2, 1, 5)])).colAt 0 <
      (convert (buildAdd [(0, 0, (2 : ℚ)), (0, 4, 3), (2, 1, 5)])).colAt 1 := by
  have h := C8_csr_invariant [(0, 0, (2 : ℚ)), (0, 4, 3), (2, 1, 5)] (by decide)
  obtain ⟨h1, h2, h3, h4, h5⟩ := h
  exact ⟨h2, h4, h5 0 (by decide) 0 1 (by decide) (by decide) (by decide)⟩

/-- Claim C9: the simple (vector-based) builder accepts duplicate
(row, col) keys; after commit the matrix holds exactly one entry for the
key — the position holding that column in the row's slice is unique —
whose value is the last value added for the key, and the builder's key
ordering `CO::operator<` is lexicographic, primarily by row and then by
column. -/
theorem C9_last_write_wins (l : List COO) (r c : Nat) (w : ℚ)
    (hlast : lastVal (l.map fun e => (⟨e.row, e.col⟩, e.value)) ⟨r, c⟩ =
      some w) :
    (∀ a b : CO, CO.lt a b = true ↔
      (a.row < b.row ∨ (a.row = b.row ∧ a.col < b.col))) ∧
    (toCsr l).exists_ r c = true ∧
    (toCsr l).rowColValue r c = w ∧
    (∃! i, (toCsr l).rowIndAt r ≤ i ∧ i < (toCsr l).rowIndAt (r + 1) ∧
      (toCsr l).colAt i = c) := by
  have hlex : ∀ a b : CO, CO.lt a b = true ↔
      (a.row < b.row ∨ (a.row = b.row ∧ a.col < b.col)) :=
    fun a b => CO.ltP_iff
  have hs : SortedEntries (sortUniqueLastWins l) := by
    rw [sortUniqueLastWins_eq_upsertAll]
    exact upsertAll_sorted _ _ [] List.Pairwise.nil
  have hfind : mapFind (sortUniqueLastWins l) ⟨r, c⟩ = some w := by
    rw [sortUniqueLastWins_eq_upsertAll]
    rw [upsertAll_find_last _ _ [] List.Pairwise.nil]
    rw [hlast]
  have hmem : ((⟨r, c⟩, w) : Entry) ∈ sortUniqueLastWins l :=
    (mapFind_eq_some_iff_mem _ hs _ _).mp hfind
  have hne : sortUniqueLastWins l ≠ [] := List.ne_nil_of_mem hmem
  have hrow : r ≤ maxRow (sortUniqueLastWins l) :=
    row_le_maxRow _ hs _ hmem
  have hex : (toCsr l).exists_ r c = true :=
    (convert_exists_iff _ hs hne _ _ hrow).mpr ⟨w, hmem⟩
  have hval : (toCsr l).rowColValue r c = w :=
    convert_rowColValue_eq _ hs hne _ _ _ hrow hmem
  refine ⟨hlex, hex, hval, ?_⟩
  have hb : (toCsr l).rowIndAt r = rowCount (sortUniqueLastWins l) r :=
    convert_rowIndAt _ hs hne r (by omega)
  have he : (toCsr l).rowIndAt (r + 1) =
      rowCount (sortUniqueLastWins l) (r + 1) :=
    convert_rowIndAt _ hs hne (r + 1) (by omega)
  have hmemr : ((⟨r, c⟩, w) : Entry) ∈ rowEntries (sortUniqueLastWins l) r :=
    (mem_rowEntries_iff _ r c w).mpr hmem
  obtain ⟨⟨j, hj⟩, hget⟩ := List.mem_iff_get.mp hmemr
  have hlen := rowCount_add_rowEntries (sortUniqueLastWins l) r
  refine ⟨rowCount (sortUniqueLastWins l) r + j,
    ⟨by omega, by rw [he]; omega, ?_⟩, ?_⟩
  · rw [show (toCsr l).colAt (rowCount (sortUniqueLastWins l) r + j) =
        ((rowEntries (sortUniqueLastWins l) r).map fun e => e.1.col).getD j 0
      from convert_colAt_slice _ hs r j hj]
    have hj' : j < ((rowEntries (sortUniqueLastWins l) r).map
        fun e => e.1.col).length := by
      rw [List.length_map]; exact hj
    rw [List.getD_eq_getElem _ _ hj', List.getElem_map]
    rw [show (rowEntries (sortUniqueLastWins l) r)[j] =
      (rowEntries (sortUniqueLastWins l) r).get ⟨j, hj⟩ from rfl, hget]
  · intro i ⟨hi1, hi2, hi3⟩
    rw [hb] at hi1
    rw [he] at hi2
    have hi3' : (convert (sortUniqueLastWins l)).colAt i = c := hi3
    have hcj : (convert (sortUniqueLastWins l)).colAt
        (rowCount (sortUniqueLastWins l) r + j) = c := by
      rw [convert_colAt_slice _ hs r j hj]
      have hj' : j < ((rowEntries (sortUniqueLastWins l) r).map
          fun e => e.1.col).length := by
        rw [List.length_map]; exact hj
      rw [List.getD_eq_getElem _ _ hj', List.getElem_map]
      rw [show (rowEntries (sortUniqueLastWins l) r)[j] =
        (rowEntries (sortUniqueLastWins l) r).get ⟨j, hj⟩ from rfl, hget]
    by_contra hcon
    rcases Nat.lt_or_ge i (rowCount (sortUniqueLastWins l) r + j) with h | h
    · have := convert_colAt_strict _ hs r i
        (rowCount (sortUniqueLastWins l) r + j) hi1 h (by omega)
      rw [hi3', hcj] at this
      omega
    · have hlt : rowCount (sortUniqueLastWins l) r + j < i := by omega
      have := convert_colAt_strict _ hs r
        (rowCount (sortUniqueLastWins l) r + j) i (by omega) hlt hi2
      rw [hi3', hcj] at this
      omega

/-- Claim C9, witness: adding (0,0)→1 then (0,0)→7 through the simple
builder and committing yields a matrix whose (0,0) entry holds the last
value 7, found by `exists`. -/
theorem C9_last_write_wins_witness :
    (toCsr [⟨0, 0, (1 : ℚ)⟩, ⟨0, 0, 7⟩]).exists_ 0 0 = true ∧
    (toCsr [⟨0, 0, (1 : ℚ)⟩, ⟨0, 0, 7⟩]).rowColValue 0 0 = 7 := by
  have h := C9_last_write_wins [⟨0, 0, (1 : ℚ)⟩, ⟨0, 0, 7⟩] 0 0 7 (by decide)
  exact ⟨h.2.1, h.2.2.1⟩

/-- The triples of the concrete scenario of claim C3, inserted through the
map-based builder declared with `setSize(6, 6)` (the builder's stored row
count is never read by `convert`, which sizes the matrix from the deepest
row that holds a nonzero). -/
def scenarioTriples : List (Nat × Nat × ℚ) :=
  [(0, 0, (10.0 : ℚ)), (0, 5, 5.72), (1, 0, 0.2),
   (2, 2, 4.2), (3, 3, 3.4), (4, 2, 3.14)]

/-- The matrix committed from the scenario triples. -/
def scenarioMatrix : SparseMatrix :=
  convert (buildAdd scenarioTriples)

/-- Claim C3, counterexample: committing the triples
(0,0,10.0),(0,5,5.72),(1,0,0.2),(2,2,4.2),(3,3,3.4),(4,2,3.14) through a
6x6 builder does NOT give `rows() == 6` with row-offset array
[0,2,3,4,5,6,6]: the code allocates `rows = max_row + 2 = 6` cells for
`row_ind` and constructs the matrix with `rows - 1 = 5` rows, so
`rows() = 5` and the row-offset array is the 6-entry [0,2,3,4,5,6]. -/
theorem C3_scenario_counterexample :
    scenarioMatrix.rows_ = 5 ∧ scenarioMatrix.rows_ ≠ 6 ∧
    scenarioMatrix.row_ind_ = [0, 2, 3, 4, 5, 6] ∧
    scenarioMatrix.row_ind_ ≠ [0, 2, 3, 4, 5, 6, 6] := by
  decide

/-- Claim C3, amended: committing the scenario triples through the 6x6
builder produces a CSR matrix with `rows() == 5` (the declared builder
size is ignored; CSR only represents rows up to the deepest nonzero row),
`nonzeros() == 6`, and the 6-entry row-offset array [0,2,3,4,5,6]. -/
theorem C3_scenario :
    scenarioMatrix.rows_ = 5 ∧ scenarioMatrix.nonzeros_ = 6 ∧
    scenarioMatrix.row_ind_ = [0, 2, 3, 4, 5, 6] := by
  decide

/-- Claim C10: for every matrix committed from the builder, `exists(r,c)`
and `operator[](r)` assert `r < rows() - 1`, so the last represented row,
index `rows() - 1`, trips the assertion of a checked build (modelled by
the `none` result) even though `rows() - 1 < rows()`, while every smaller
row index passes the guard and reaches the search. -/
theorem C10_last_row_assert (ts : List (Nat × Nat × ℚ)) :
    (convert (buildAdd ts)).rows_ - 1 < (convert (buildAdd ts)).rows_ ∧
    (∀ c, (convert (buildAdd ts)).existsChecked
      ((convert (buildAdd ts)).rows_ - 1) c = none) ∧
    (convert (buildAdd ts)).opIndexChecked
      ((convert (buildAdd ts)).rows_ - 1) = none ∧
    (∀ r c, r < (convert (buildAdd ts)).rows_ - 1 →
      (convert (buildAdd ts)).existsChecked r c =
        some ((convert (buildAdd ts)).exists_ r c) ∧
      (convert (buildAdd ts)).opIndexChecked r = some r) := by
  set m := convert (buildAdd ts) with hmdef
  have hm : 1 ≤ m.rows_ := by
    show 1 ≤ (convert (buildAdd ts)).rows_
    simp only [convert]
    omega
  refine ⟨by omega, fun c => ?_, ?_, fun r c hr => ⟨?_, ?_⟩⟩
  · simp [SparseMatrix.existsChecked]
  · simp [SparseMatrix.opIndexChecked]
  · simp [SparseMatrix.existsChecked, hr]
  · simp [SparseMatrix.opIndexChecked, hr]

/-- Claim C10, witness: the matrix committed from the single triple
(0,0,1) has one row, and querying that last row (index 0 = rows() - 1)
through the checked `exists`/`operator[]` trips the assertion. -/
theorem C10_last_row_assert_witness :
    (convert (buildAdd [(0, 0, (1 : ℚ))])).existsChecked 0 0 = none ∧
    (convert (buildAdd [(0, 0, (1 : ℚ))])).opIndexChecked 0 = none :=
  ⟨(C10_last_row_assert [(0, 0, (1 : ℚ))]).2.1 0,
   (C10_last_row_assert [(0, 0, (1 : ℚ))]).2.2.1⟩

/-!
## The cubic spline engine (src/Spline.hpp)

The spline is embedded over ℝ: the C++ code computes with `double`; the
claims under study are statements about the real-number behaviour of the
algorithms (the spec grants floating-point tolerance), so the standard
shallow embedding maps `Scalar` to ℝ.  A `Spline` value is the object
state after one of the `set` operations: the sample vectors `xPos_`,
`yPos_` and the slope vector `slopeVec_`; which states are reachable for
each boundary-condition mode is captured by explicit construction
predicates below.  Array reads out of range are undefined behaviour in
C++; the total functions ℕ → ℝ model the memory with arbitrary values
there.  Loops with a statically bounded iteration count are written with
an explicit fuel argument that is always instantiated large enough (each
loop round consumes one unit and strictly advances its counter). -/

/-- Spline state: `numSamples()`, `xPos_`, `yPos_`, `slopeVec_`. -/
structure Spline where
  n : ℕ
  x : ℕ → ℝ
  y : ℕ → ℝ
  slope : ℕ → ℝ

namespace Spline

/-- `h_(i) = x_(i) - x_(i-1)` (Spline.hpp line 1710). -/
noncomputable def h_ (s : Spline) (i : ℕ) : ℝ := s.x i - s.x (i - 1)

/-- `xMin()`. -/
noncomputable def xMin (s : Spline) : ℝ := s.x 0

/-- `xMax()`. -/
noncomputable def xMax (s : Spline) : ℝ := s.x (s.n - 1)

/-- `applies(x)`: true iff `x` is in `[x_0, x_(n-1)]`. -/
def applies (s : Spline) (u : ℝ) : Prop := s.xMin ≤ u ∧ u ≤ s.xMax

/-- Hermite basis functions (Spline.hpp lines 1540-1550). -/
noncomputable def h00_ (t : ℝ) : ℝ := (2 * t - 3) * t * t + 1

noncomputable def h10_ (t : ℝ) : ℝ := ((t - 2) * t + 1) * t

noncomputable def h01_ (t : ℝ) : ℝ := (-2 * t + 3) * t * t

noncomputable def h11_ (t : ℝ) : ℝ := (t - 1) * t * t

/-- First derivatives of the Hermite basis (lines 1553-1563). -/
noncomputable def h00_prime_ (t : ℝ) : ℝ := (3 * 2 * t - 2 * 3) * t

noncomputable def h10_prime_ (t : ℝ) : ℝ := (3 * t - 2 * 2) * t + 1

noncomputable def h01_prime_ (t : ℝ) : ℝ := (-3 * 2 * t + 2 * 3) * t

noncomputable def h11_prime_ (t : ℝ) : ℝ := (3 * t - 2) * t

/-- Second derivatives of the Hermite basis (lines 1566-1576). -/
noncomputable def h00_prime2_ (t : ℝ) : ℝ := 2 * 3 * 2 * t - 2 * 3

noncomputable def h10_prime2_ (t : ℝ) : ℝ := 2 * 3 * t - 2 * 2

noncomputable def h01_prime2_ (t : ℝ) : ℝ := -2 * 3 * 2 * t + 2 * 3

noncomputable def h11_prime2_ (t : ℝ) : ℝ := 2 * 3 * t - 2

/-- Third derivatives of the Hermite basis (lines 1579-1589). -/
noncomputable def h00_prime3_ : ℝ := 2 * 3 * 2

noncomputable def h10_prime3_ : ℝ := 2 * 3

noncomputable def h01_prime3_ : ℝ := -(2 * 3 * 2)

noncomputable def h11_prime3_ : ℝ := 2 * 3

/-- `eval_(x, i)` (lines 1475-1486): Hermite evaluation on segment `i`
with normalised parameter `t = (x - x_i) / h_(i+1)`. -/
noncomputable def eval_ (s : Spline) (u : ℝ) (i : ℕ) : ℝ :=
  let delta := s.h_ (i + 1)
  let t := (u - s.x i) / delta
  h00_ t * s.y i + h10_ t * s.slope i * delta +
    h01_ t * s.y (i + 1) + h11_ t * s.slope (i + 1) * delta

/-- `evalDerivative_(x, i)` (lines 1490-1503). -/
noncomputable def evalDerivative_ (s : Spline) (u : ℝ) (i : ℕ) : ℝ :=
  let delta := s.h_ (i + 1)
  let t := (u - s.x i) / delta
  let alpha := 1 / delta
  alpha * (h00_prime_ t * s.y i + h10_prime_ t * s.slope i * delta +
    h01_prime_ t * s.y (i + 1) + h11_prime_ t * s.slope (i + 1) * delta)

/-- `evalDerivative2_(x, i)` (lines 1507-1520). -/
noncomputable def evalDerivative2_ (s : Spline) (u : ℝ) (i : ℕ) : ℝ :=
  let delta := s.h_ (i + 1)
  let t := (u - s.x i) / delta
  let alpha := 1 / delta
  alpha * alpha * (h00_prime2_ t * s.y i + h10_prime2_ t * s.slope i * delta +
    h01_prime2_ t * s.y (i + 1) + h11_prime2_ t * s.slope (i + 1) * delta)

/-- `evalDerivative3_(x, i)` (lines 1524-1537). -/
noncomputable def evalDerivative3_ (s : Spline) (u : ℝ) (i : ℕ) : ℝ :=
  let delta := s.h_ (i + 1)
  let alpha := 1 / delta
  alpha * alpha * alpha * (h00_prime3_ * s.y i + h10_prime3_ * s.slope i * delta +
    h01_prime3_ * s.y (i + 1) + h11_prime3_ * s.slope (i + 1) * delta)

/-- Coefficient of `x^3` of segment `i` in the monomial basis:
`a_(i) = evalDerivative3_(0, i) / 6.0` (lines 1738-1739). -/
noncomputable def a_ (s : Spline) (i : ℕ) : ℝ := s.evalDerivative3_ 0 i / 6.0

/-- Coefficient of `x^2`: `b_(i) = evalDerivative2_(0, i) / 2.0`. -/
noncomputable def b_ (s : Spline) (i : ℕ) : ℝ := s.evalDerivative2_ 0 i / 2.0

/-- Coefficient of `x^1`: `c_(i) = evalDerivative_(0, i)`. -/
noncomputable def c_ (s : Spline) (i : ℕ) : ℝ := s.evalDerivative_ 0 i

/-- Coefficient of `x^0`: `d_(i) = eval_(0, i)`. -/
noncomputable def d_ (s : Spline) (i : ℕ) : ℝ := s.eval_ 0 i

/-- The bisection loop of `segmentIdx_` (lines 1691-1705).  One fuel unit
per loop round; the bracket `iHigh - iLow` strictly shrinks each round,
so any `fuel ≥ iHigh - iLow` suffices and the `fuel = 0` branch is
unreachable from `segmentIdx_`. -/
noncomputable def segmentIdxAux (s : Spline) (u : ℝ) : ℕ → ℕ → ℕ → ℕ
  | 0, iLow, _ => iLow
  | fuel + 1, iLow, iHigh =>
    if iLow + 1 < iHigh then
      let i := (iLow + iHigh) / 2
      if s.x i > u then segmentIdxAux s u fuel iLow i
      else segmentIdxAux s u fuel i iHigh
    else iLow

/-- `segmentIdx_(x)`: bisection over `[0, numSamples() - 1]`. -/
noncomputable def segmentIdx_ (s : Spline) (u : ℝ) : ℕ :=
  segmentIdxAux s u s.n 0 (s.n - 1)

/-- `eval(x, extrapolate)` (lines 794-813) in release semantics (the
`assert(extrapolate || applies(x))` is a no-op). -/
noncomputable def eval (s : Spline) (u : ℝ) (extrapolate : Bool) : ℝ :=
  if extrapolate = true ∧ u < s.xMin then
    s.y 0 + s.evalDerivative_ s.xMin 0 * (u - s.xMin)
  else if extrapolate = true ∧ u > s.xMax then
    s.y (s.n - 1) + s.evalDerivative_ s.xMax (s.n - 2) * (u - s.xMax)
  else s.eval_ u (s.segmentIdx_ u)

/-- `evalDerivative(x, extrapolate)` (lines 827-838). -/
noncomputable def evalDerivative (s : Spline) (u : ℝ) (extrapolate : Bool) : ℝ :=
  if extrapolate = true ∧ u < s.xMin then s.evalDerivative_ s.xMin 0
  else if extrapolate = true ∧ u > s.xMax then
    s.evalDerivative_ s.xMax (s.n - 2)
  else s.evalDerivative_ u (s.segmentIdx_ u)

/-- `evalSecondDerivative(x, extrapolate)` (lines 852-859): under
extrapolation the function returns 0.0 before any range test. -/
noncomputable def evalSecondDerivative (s : Spline) (u : ℝ)
    (extrapolate : Bool) : ℝ :=
  if extrapolate = true then 0
  else s.evalDerivative2_ u (s.segmentIdx_ u)

/-- `evalThirdDerivative(x, extrapolate)` (lines 873-880). -/
noncomputable def evalThirdDerivative (s : Spline) (u : ℝ)
    (extrapolate : Bool) : ℝ :=
  if extrapolate = true then 0
  else s.evalDerivative3_ u (s.segmentIdx_ u)

/-- Sample x values strictly increasing over the stored range: the
documented precondition of the spline ("the sampling points must be
given in ascending order", assert in `h_`). -/
def SortedX (s : Spline) : Prop :=
  ∀ i j, i < j → j < s.n → s.x i < s.x j

/-- `setSlopesFromMoments_` (Spline.hpp lines 1420-1470): the slope at
each of the first `n-1` sample points from the left-end formula of its
segment, and the slope at the last point (`mRight`) from the right-end
formula of the last segment. -/
def SlopesFromMoments (s : Spline) (M : ℕ → ℝ) : Prop :=
  (∀ i, i < s.n - 1 → s.slope i =
    -(M i) * s.h_ (i + 1) * s.h_ (i + 1) / (2 * s.h_ (i + 1)) +
      ((s.y (i + 1) - s.y i) / s.h_ (i + 1) -
        s.h_ (i + 1) / 6 * (M (i + 1) - M i))) ∧
  s.slope (s.n - 1) =
    M (s.n - 1) * s.h_ (s.n - 1) * s.h_ (s.n - 1) / (2 * s.h_ (s.n - 1)) +
      ((s.y (s.n - 1) - s.y (s.n - 2)) / s.h_ (s.n - 1) -
        s.h_ (s.n - 1) / 6 * (M (s.n - 1) - M (s.n - 2)))

/-- `lambda_i = h_(i+1) / (h_(i) + h_(i+1))` of the moment systems. -/
noncomputable def lam (s : Spline) (i : ℕ) : ℝ :=
  s.h_ (i + 1) / (s.h_ i + s.h_ (i + 1))

/-- Right-hand side `d_i` of the interior moment equations. -/
noncomputable def interiorD (s : Spline) (i : ℕ) : ℝ :=
  6 / (s.h_ i + s.h_ (i + 1)) *
    ((s.y (i + 1) - s.y i) / s.h_ (i + 1) - (s.y i - s.y (i - 1)) / s.h_ i)

/-- The row equations assembled by `makeNaturalSystem_` (lines
1262-1302), stated for a solution vector `M`.  Modelled from the spec:
`TridiagonalMatrix::solve` (TridiagonalMatrix.hpp is not in src/) is
taken, per the spec's "solve for the moments", to produce a vector
satisfying the assembled system `M x = d`. -/
def NaturalSystem (s : Spline) (M : ℕ → ℝ) : Prop :=
  (2 * M 0 + 0 * M 1 = 0) ∧
  (∀ i, 1 ≤ i → i < s.n - 1 →
    (1 - s.lam i) * M (i - 1) + 2 * M i + s.lam i * M (i + 1) =
      s.interiorD i) ∧
  (0 * M (s.n - 2) + 2 * M (s.n - 1) = 0)

/-- The row equations assembled by `makeFullSystem_` (lines 1239-1256):
the natural system with the first and last rows replaced to prescribe
the boundary slopes `m0`, `m1`. -/
def FullSystem (s : Spline) (m0 m1 : ℝ) (M : ℕ → ℝ) : Prop :=
  (2 * M 0 + 1 * M 1 = 6 / s.h_ 1 * ((s.y 1 - s.y 0) / s.h_ 1 - m0)) ∧
  (∀ i, 1 ≤ i → i < s.n - 1 →
    (1 - s.lam i) * M (i - 1) + 2 * M i + s.lam i * M (i + 1) =
      s.interiorD i) ∧
  (1 * M (s.n - 2) + 2 * M (s.n - 1) =
    6 / s.h_ (s.n - 1) *
      (m1 - (s.y (s.n - 1) - s.y (s.n - 2)) / s.h_ (s.n - 1)))

/-- The spline state is one produced by `makeNaturalSpline_`: some
moment vector solves the natural system and the stored slopes are
derived from it. -/
def NaturalConstructed (s : Spline) : Prop :=
  ∃ M : ℕ → ℝ, NaturalSystem s M ∧ SlopesFromMoments s M

/-- The spline state is one produced by `makeFullSpline_` for some
boundary slopes. -/
def FullConstructed (s : Spline) : Prop :=
  ∃ m0 m1 : ℝ, ∃ M : ℕ → ℝ, FullSystem s m0 m1 M ∧ SlopesFromMoments s M

/-! ### The bisection and the interpolation property -/

theorem segmentIdxAux_succ (s : Spline) (u : ℝ) (fuel iLow iHigh : ℕ) :
    segmentIdxAux s u (fuel + 1) iLow iHigh =
      if iLow + 1 < iHigh then
        if s.x ((iLow + iHigh) / 2) > u then
          segmentIdxAux s u fuel iLow ((iLow + iHigh) / 2)
        else segmentIdxAux s u fuel ((iLow + iHigh) / 2) iHigh
      else iLow := rfl

/-- Loop invariant of the bisection: the result stays inside the
bracket, a lower bound `x_(iLow) ≤ u` propagates to the result, an upper
bound `u < x_(iHigh)` propagates to the successor of the result, and if
`u` is at or beyond `x_(iHigh)` the search degenerates to `iHigh - 1`
(for sorted samples). -/
theorem segmentIdxAux_spec (s : Spline) (u : ℝ) :
    ∀ fuel iLow iHigh, iHigh - iLow ≤ fuel → iLow < iHigh →
      (iLow ≤ segmentIdxAux s u fuel iLow iHigh ∧
        segmentIdxAux s u fuel iLow iHigh < iHigh) ∧
      (s.x iLow ≤ u → s.x (segmentIdxAux s u fuel iLow iHigh) ≤ u) ∧
      (u < s.x iHigh → u < s.x (segmentIdxAux s u fuel iLow iHigh + 1)) ∧
      (SortedX s → iHigh ≤ s.n - 1 → 2 ≤ s.n → s.x iHigh ≤ u →
        segmentIdxAux s u fuel iLow iHigh = iHigh - 1) := by
  intro fuel
  induction fuel with
  | zero => intro iLow iHigh h1 h2; omega
  | succ fuel ih =>
    intro iLow iHigh hfuel hlt
    rw [segmentIdxAux_succ]
    by_cases hloop : iLow + 1 < iHigh
    · rw [if_pos hloop]
      set mid := (iLow + iHigh) / 2 with hmid
      have hmid1 : iLow < mid := by omega
      have hmid2 : mid < iHigh := by omega
      by_cases hcmp : s.x mid > u
      · rw [if_pos hcmp]
        have hrec := ih iLow mid (by omega) (by omega)
        refine ⟨⟨hrec.1.1, by omega⟩, hrec.2.1, ?_, ?_⟩
        · intro _
          exact hrec.2.2.1 hcmp
        · intro hsorted hbound hn hge
          exfalso
          have : s.x mid < s.x iHigh := hsorted mid iHigh hmid2 (by omega)
          have : u < s.x iHigh := lt_of_lt_of_le hcmp (le_of_lt this)
          linarith
      · rw [if_neg hcmp]
        push_neg at hcmp
        have hrec := ih mid iHigh (by omega) (by omega)
        refine ⟨⟨by omega, hrec.1.2⟩, fun _ => hrec.2.1 hcmp, hrec.2.2.1, ?_⟩
        intro hsorted hbound hn hge
        have := hrec.2.2.2 hsorted hbound hn hge
        omega
    · rw [if_neg hloop]
      have hsucc : iHigh = iLow + 1 := by omega
      refine ⟨⟨le_refl _, by omega⟩, fun h => h, fun h => ?_, fun _ _ _ _ => by omega⟩
      rw [hsucc] at h
      exact h

/-- For sorted samples, `segmentIdx_` maps the `k`-th sample point to
segment `k` when `k ≤ n - 2`, and the last sample point to the last
segment `n - 2`. -/
theorem segmentIdx_at_sample (s : Spline) (hs : SortedX s) (hn : 2 ≤ s.n)
    (k : ℕ) (hk : k < s.n) :
    s.segmentIdx_ (s.x k) = min k (s.n - 2) := by
  unfold segmentIdx_
  have hspec := segmentIdxAux_spec s (s.x k) s.n 0 (s.n - 1)
    (by omega) (by omega)
  by_cases hlast : k = s.n - 1
  · have := hspec.2.2.2 hs (le_refl _) hn (by rw [hlast])
    rw [this]
    omega
  · have hklt : k ≤ s.n - 2 := by omega
    have h0 : s.x 0 ≤ s.x k := by
      rcases Nat.eq_zero_or_pos k with h | h
      · rw [h]
      · exact le_of_lt (hs 0 k h hk)
    have hhi : s.x k < s.x (s.n - 1) := hs k (s.n - 1) (by omega) (by omega)
    have hle := hspec.2.1 h0
    have hgt := hspec.2.2.1 hhi
    set r := segmentIdxAux s (s.x k) s.n 0 (s.n - 1) with hr
    have hrk : r ≤ k := by
      by_contra hcon
      push_neg at hcon
      have : s.x k < s.x r := hs k r hcon (by omega)
      linarith
    have hkr : k ≤ r := by
      by_contra hcon
      push_neg at hcon
      have : s.x (r + 1) ≤ s.x k := by
        by_cases h : r + 1 = k
        · rw [h]
        · exact le_of_lt (hs (r + 1) k (by omega) hk)
      linarith
    omega

/-- Hermite endpoint property at the left knot: `eval_(x_i, i) = y_i`. -/
theorem eval_left_knot (s : Spline) (i : ℕ) : s.eval_ (s.x i) i = s.y i := by
  unfold eval_ h00_ h10_ h01_ h11_
  simp only [sub_self, zero_div]
  ring

/-- Hermite endpoint property at the right knot: for sorted samples with
`i + 1 < n`, `eval_(x_(i+1), i) = y_(i+1)`. -/
theorem eval_right_knot (s : Spline) (hs : SortedX s) (i : ℕ)
    (hi : i + 1 < s.n) : s.eval_ (s.x (i + 1)) i = s.y (i + 1) := by
  unfold eval_ h00_ h10_ h01_ h11_ h_
  have hne : s.x (i + 1) - s.x i ≠ 0 := by
    have := hs i (i + 1) (by omega) hi
    intro h
    have : s.x (i + 1) = s.x i := by linarith [sub_eq_zero.mp h]
    linarith
  rw [show (i + 1 - 1 : ℕ) = i from rfl]
  field_simp
  ring

/-- Claim C1: for every Full or Natural spline constructed from `n ≥ 2`
samples with strictly increasing x values, `eval(x_i, extrapolate=false)`
returns `y_i` at every sample point `i` — the interpolation property.
(With exact real arithmetic the equality is exact; the Hermite form
interpolates the end values of each segment for any slope vector the
moment solve produces.) -/
theorem C1_interpolation (s : Spline) (hn : 2 ≤ s.n) (hs : SortedX s)
    (hc : FullConstructed s ∨ NaturalConstructed s) :
    ∀ k, k < s.n → s.eval (s.x k) false = s.y k := by
  intro k hk
  unfold eval
  rw [if_neg (by simp), if_neg (by simp)]
  rw [segmentIdx_at_sample s hs hn k hk]
  by_cases hlast : k = s.n - 1
  · rw [hlast]
    rw [show min (s.n - 1) (s.n - 2) = s.n - 2 by omega]
    rw [show (s.n - 1 : ℕ) = (s.n - 2) + 1 by omega]
    exact eval_right_knot s hs (s.n - 2) (by omega)
  · rw [show min k (s.n - 2) = k by omega]
    exact eval_left_knot s k

/-- The 2-sample natural spline through (0,0) and (1,1): moments (0,0),
slopes (1,1) — the straight line. -/
noncomputable def lineSpline : Spline :=
  { n := 2
    x := fun i => if i = 0 then 0 else 1
    y := fun i => if i = 0 then 0 else 1
    slope := fun _ => 1 }

theorem lineSpline_natural : NaturalConstructed lineSpline := by
  refine ⟨fun _ => 0, ⟨by norm_num, fun i h1 h2 => ?_, by norm_num⟩, ?_, ?_⟩
  · have h2' : i < 2 - 1 := h2
    omega
  · intro i hi
    have hi0 : i = 0 := by
      have hi' : i < 2 - 1 := hi
      omega
    subst hi0
    show (1 : ℝ) = _
    unfold lineSpline Spline.h_
    norm_num
  · show (1 : ℝ) = _
    unfold lineSpline Spline.h_
    norm_num

/-- Claim C1, witness: the natural spline through (0,0), (1,1)
interpolates both sample points. -/
theorem C1_interpolation_witness :
    lineSpline.eval (lineSpline.x 0) false = lineSpline.y 0 ∧
    lineSpline.eval (lineSpline.x 1) false = lineSpline.y 1 := by
  have hs : SortedX lineSpline := by
    intro i j hij hj
    have hj' : j < 2 := hj
    have hi0 : i = 0 := by omega
    have hj1 : j = 1 := by omega
    subst hi0
    subst hj1
    show (0 : ℝ) < 1
    norm_num
  have h := C1_interpolation lineSpline (by norm_num [lineSpline]) hs
    (Or.inr lineSpline_natural)
  exact ⟨h 0 (by norm_num [lineSpline]), h 1 (by norm_num [lineSpline])⟩

/-! ### Segment cubics in monomial form and true derivatives -/

theorem segmentIdx_lt (s : Spline) (hn : 2 ≤ s.n) (u : ℝ) :
    s.segmentIdx_ u < s.n - 1 :=
  (segmentIdxAux_spec s u s.n 0 (s.n - 1) (by omega) (by omega)).1.2

theorem h_pos (s : Spline) (hs : SortedX s) (i : ℕ) (h1 : 1 ≤ i)
    (h2 : i < s.n) : 0 < s.h_ i := by
  unfold h_
  have := hs (i - 1) i (by omega) h2
  linarith

/-- A segment cubic equals its own Taylor expansion at 0, whose
coefficients are exactly `a_`, `b_`, `c_`, `d_` — the monomial
extraction performed by the source. -/
theorem eval_eq_monomial (s : Spline) (i : ℕ) (hδ : s.h_ (i + 1) ≠ 0)
    (u : ℝ) :
    s.eval_ u i = s.d_ i + s.c_ i * u + s.b_ i * u ^ 2 + s.a_ i * u ^ 3 := by
  unfold d_ c_ b_ a_ eval_ evalDerivative_ evalDerivative2_ evalDerivative3_
    h00_ h10_ h01_ h11_ h00_prime_ h10_prime_ h01_prime_ h11_prime_
    h00_prime2_ h10_prime2_ h01_prime2_ h11_prime2_
    h00_prime3_ h10_prime3_ h01_prime3_ h11_prime3_
  field_simp
  ring

theorem evalDerivative_eq_monomial (s : Spline) (i : ℕ)
    (hδ : s.h_ (i + 1) ≠ 0) (u : ℝ) :
    s.evalDerivative_ u i = s.c_ i + 2 * s.b_ i * u + 3 * s.a_ i * u ^ 2 := by
  unfold c_ b_ a_ evalDerivative_ evalDerivative2_ evalDerivative3_
    h00_prime_ h10_prime_ h01_prime_ h11_prime_
    h00_prime2_ h10_prime2_ h01_prime2_ h11_prime2_
    h00_prime3_ h10_prime3_ h01_prime3_ h11_prime3_
  field_simp
  ring

theorem evalDerivative2_eq_monomial (s : Spline) (i : ℕ)
    (hδ : s.h_ (i + 1) ≠ 0) (u : ℝ) :
    s.evalDerivative2_ u i = 2 * s.b_ i + 6 * s.a_ i * u := by
  unfold b_ a_ evalDerivative2_ evalDerivative3_
    h00_prime2_ h10_prime2_ h01_prime2_ h11_prime2_
    h00_prime3_ h10_prime3_ h01_prime3_ h11_prime3_
  field_simp
  ring

theorem evalDerivative3_eq_monomial (s : Spline) (i : ℕ)
    (hδ : s.h_ (i + 1) ≠ 0) (u : ℝ) :
    s.evalDerivative3_ u i = 6 * s.a_ i := by
  unfold a_ evalDerivative3_
    h00_prime3_ h10_prime3_ h01_prime3_ h11_prime3_
  field_simp
  ring

theorem hasDerivAt_cubic (aa bb cc dd u : ℝ) :
    HasDerivAt (fun v : ℝ => dd + cc * v + bb * v ^ 2 + aa * v ^ 3)
      (cc + 2 * bb * u + 3 * aa * u ^ 2) u := by
  have h0 : HasDerivAt (fun _ : ℝ => dd) 0 u := hasDerivAt_const u dd
  have h1 : HasDerivAt (fun v : ℝ => cc * v) (cc * 1) u :=
    (hasDerivAt_id u).const_mul cc
  have h2 : HasDerivAt (fun v : ℝ => bb * v ^ 2)
      (bb * (2 * u ^ 1)) u := (hasDerivAt_pow 2 u).const_mul bb
  have h3 : HasDerivAt (fun v : ℝ => aa * v ^ 3)
      (aa * (3 * u ^ 2)) u := (hasDerivAt_pow 3 u).const_mul aa
  have := ((h0.add h1).add h2).add h3
  convert this using 1
  ring

theorem hasDerivAt_quadratic (aa bb cc u : ℝ) :
    HasDerivAt (fun v : ℝ => cc + 2 * bb * v + 3 * aa * v ^ 2)
      (2 * bb + 6 * aa * u) u := by
  have h0 : HasDerivAt (fun _ : ℝ => cc) 0 u := hasDerivAt_const u cc
  have h1 : HasDerivAt (fun v : ℝ => 2 * bb * v) (2 * bb * 1) u :=
    (hasDerivAt_id u).const_mul (2 * bb)
  have h2 : HasDerivAt (fun v : ℝ => 3 * aa * v ^ 2)
      (3 * aa * (2 * u ^ 1)) u := (hasDerivAt_pow 2 u).const_mul (3 * aa)
  have := (h0.add h1).add h2
  convert this using 1
  ring

theorem hasDerivAt_linear (aa bb u : ℝ) :
    HasDerivAt (fun v : ℝ => 2 * bb + 6 * aa * v) (6 * aa) u := by
  have h0 : HasDerivAt (fun _ : ℝ => 2 * bb) 0 u := hasDerivAt_const u (2 * bb)
  have h1 : HasDerivAt (fun v : ℝ => 6 * aa * v) (6 * aa * 1) u :=
    (hasDerivAt_id u).const_mul (6 * aa)
  have := h0.add h1
  convert this using 1
  ring

theorem iteratedDeriv_two_cubic (aa bb cc dd u : ℝ) :
    iteratedDeriv 2
      (fun v : ℝ => dd + cc * v + bb * v ^ 2 + aa * v ^ 3) u =
      2 * bb + 6 * aa * u := by
  rw [iteratedDeriv_succ, iteratedDeriv_one]
  have hd1 : deriv (fun v : ℝ => dd + cc * v + bb * v ^ 2 + aa * v ^ 3) =
      fun v => cc + 2 * bb * v + 3 * aa * v ^ 2 :=
    funext fun v => (hasDerivAt_cubic aa bb cc dd v).deriv
  rw [hd1]
  exact (hasDerivAt_quadratic aa bb cc u).deriv

theorem iteratedDeriv_three_cubic (aa bb cc dd u : ℝ) :
    iteratedDeriv 3
      (fun v : ℝ => dd + cc * v + bb * v ^ 2 + aa * v ^ 3) u = 6 * aa := by
  rw [iteratedDeriv_succ]
  have hd2 : iteratedDeriv 2
      (fun v : ℝ => dd + cc * v + bb * v ^ 2 + aa * v ^ 3) =
      fun v => 2 * bb + 6 * aa * v :=
    funext fun v => iteratedDeriv_two_cubic aa bb cc dd v
  rw [hd2]
  exact (hasDerivAt_linear aa bb u).deriv

/-- Claim C5, amended: for every spline (sorted samples, `n ≥ 2`) and
every x — inside or outside `[xMin, xMax]`, with no domain hypothesis —
`evalSecondDerivative(x, extrapolate=true)` and
`evalThirdDerivative(x, extrapolate=true)` return exactly 0 (the code
returns 0 before any range test); with `extrapolate=false` they return
the true second (respectively third) derivative of the cubic segment
the bisection selects, which for x inside the domain is the segment
containing x. -/
theorem C5_second_third_derivative (s : Spline) (hn : 2 ≤ s.n)
    (hs : SortedX s) (u : ℝ) :
    s.evalSecondDerivative u true = 0 ∧
    s.evalThirdDerivative u true = 0 ∧
    s.evalSecondDerivative u false =
      iteratedDeriv 2 (fun v => s.eval_ v (s.segmentIdx_ u)) u ∧
    s.evalThirdDerivative u false =
      iteratedDeriv 3 (fun v => s.eval_ v (s.segmentIdx_ u)) u := by
  have hseg := segmentIdx_lt s hn u
  have hδ : s.h_ (s.segmentIdx_ u + 1) ≠ 0 := by
    have := h_pos s hs (s.segmentIdx_ u + 1) (by omega) (by omega)
    linarith
  have hfun : (fun v => s.eval_ v (s.segmentIdx_ u)) =
      fun v => s.d_ (s.segmentIdx_ u) + s.c_ (s.segmentIdx_ u) * v +
        s.b_ (s.segmentIdx_ u) * v ^ 2 + s.a_ (s.segmentIdx_ u) * v ^ 3 :=
    funext fun v => eval_eq_monomial s (s.segmentIdx_ u) hδ v
  refine ⟨by unfold evalSecondDerivative; simp,
    by unfold evalThirdDerivative; simp, ?_, ?_⟩
  · rw [hfun, iteratedDeriv_two_cubic]
    show s.evalDerivative2_ u (s.segmentIdx_ u) = _
    exact evalDerivative2_eq_monomial s _ hδ u
  · rw [hfun, iteratedDeriv_three_cubic]
    show s.evalDerivative3_ u (s.segmentIdx_ u) = _
    exact evalDerivative3_eq_monomial s _ hδ u

/-- The 2-sample full spline through (0,0), (1,1) with prescribed zero
end slopes: moments (6,-6), slopes (0,0); its single segment is the
cubic `3x² - 2x³`, whose second derivative at 0 is 6 and third
derivative is -12. -/
noncomputable def bumpSpline : Spline :=
  { n := 2
    x := fun i => if i = 0 then 0 else 1
    y := fun i => if i = 0 then 0 else 1
    slope := fun _ => 0 }

theorem bumpSpline_full : FullConstructed bumpSpline := by
  refine ⟨0, 0, fun i => if i = 0 then 6 else -6, ⟨?_, fun i h1 h2 => ?_, ?_⟩, ?_, ?_⟩
  · show (2 : ℝ) * 6 + 1 * (-6) = 6 / bumpSpline.h_ 1 *
      ((bumpSpline.y 1 - bumpSpline.y 0) / bumpSpline.h_ 1 - 0)
    unfold bumpSpline Spline.h_
    norm_num
  · have h2' : i < 2 - 1 := h2
    omega
  · show (1 : ℝ) * (if (2 : ℕ) - 2 = 0 then (6 : ℝ) else -6) + 2 * (-6) = _
    unfold bumpSpline Spline.h_
    norm_num
  · intro i hi
    have hi0 : i = 0 := by
      have hi' : i < 2 - 1 := hi
      omega
    subst hi0
    show (0 : ℝ) = _
    unfold bumpSpline Spline.h_
    norm_num
  · show (0 : ℝ) = _
    unfold bumpSpline Spline.h_
    norm_num

theorem bumpSpline_sorted : SortedX bumpSpline := by
  intro i j hij hj
  have hj' : j < 2 := hj
  have hi0 : i = 0 := by omega
  have hj1 : j = 1 := by omega
  subst hi0
  subst hj1
  show (0 : ℝ) < 1
  norm_num

theorem bumpSpline_segmentIdx_zero : bumpSpline.segmentIdx_ 0 = 0 := rfl

/-- Claim C5, counterexample: `bumpSpline` is a Full spline, `x = 0` lies
inside its domain, `evalSecondDerivative(0, extrapolate=true)` and
`evalThirdDerivative(0, extrapolate=true)` return 0, yet the second and
third derivatives of the cubic segment containing 0 are 6 and -12 — so
under extrapolation the functions do NOT return the derivatives of the
containing segment for points inside the domain. -/
theorem C5_counterexample :
    FullConstructed bumpSpline ∧
    bumpSpline.applies 0 ∧
    bumpSpline.evalSecondDerivative 0 true = 0 ∧
    bumpSpline.evalThirdDerivative 0 true = 0 ∧
    iteratedDeriv 2 (fun v => bumpSpline.eval_ v (bumpSpline.segmentIdx_ 0)) 0 = 6 ∧
    iteratedDeriv 3 (fun v => bumpSpline.eval_ v (bumpSpline.segmentIdx_ 0)) 0 = -12 := by
  have hδ : bumpSpline.h_ 1 ≠ 0 := by
    unfold bumpSpline Spline.h_
    norm_num
  have hfun : (fun v => bumpSpline.eval_ v (bumpSpline.segmentIdx_ 0)) =
      fun v => bumpSpline.d_ 0 + bumpSpline.c_ 0 * v +
        bumpSpline.b_ 0 * v ^ 2 + bumpSpline.a_ 0 * v ^ 3 := by
    rw [bumpSpline_segmentIdx_zero]
    exact funext fun v => eval_eq_monomial bumpSpline 0 hδ v
  have ha : bumpSpline.a_ 0 = -2 := by
    unfold bumpSpline Spline.a_ Spline.evalDerivative3_ Spline.h_
      Spline.h00_prime3_ Spline.h10_prime3_ Spline.h01_prime3_ Spline.h11_prime3_
    norm_num
  have hb : bumpSpline.b_ 0 = 3 := by
    unfold bumpSpline Spline.b_ Spline.evalDerivative2_ Spline.h_
      Spline.h00_prime2_ Spline.h10_prime2_ Spline.h01_prime2_ Spline.h11_prime2_
    norm_num
  refine ⟨bumpSpline_full, ?_, by unfold Spline.evalSecondDerivative; simp,
    by unfold Spline.evalThirdDerivative; simp, ?_, ?_⟩
  · constructor
    · show bumpSpline.x 0 ≤ 0
      unfold bumpSpline
      norm_num
    · show (0 : ℝ) ≤ bumpSpline.x (2 - 1)
      unfold bumpSpline
      norm_num
  · rw [hfun, iteratedDeriv_two_cubic, ha, hb]
    norm_num
  · rw [hfun, iteratedDeriv_three_cubic, ha]
    norm_num

/-- Claim C5, witness for the amended theorem: instantiated on
`bumpSpline` both at the point 2 outside its domain [0, 1] (where the
extrapolated second and third derivatives are 0) and at the interior
point 0 (where the non-extrapolated second derivative agrees with the
true second derivative of the segment). -/
theorem C5_second_third_derivative_witness :
    bumpSpline.evalSecondDerivative 2 true = 0 ∧
    bumpSpline.evalThirdDerivative 2 true = 0 ∧
    bumpSpline.evalSecondDerivative 0 false =
      iteratedDeriv 2 (fun v => bumpSpline.eval_ v (bumpSpline.segmentIdx_ 0)) 0 := by
  have h2 := C5_second_third_derivative bumpSpline (by norm_num [bumpSpline])
    bumpSpline_sorted 2
  have h0 := C5_second_third_derivative bumpSpline (by norm_num [bumpSpline])
    bumpSpline_sorted 0
  exact ⟨h2.1, h2.2.1, h0.2.2.1⟩

/-! ### The periodic moment system (claim C7) -/

/-- Assignment to one entry of the moment matrix (`M[r][c] = v`);
successive assignments to the same entry overwrite, as in the source. -/
noncomputable def upd2 (f : ℕ → ℕ → ℝ) (r c : ℕ) (v : ℝ) : ℕ → ℕ → ℝ :=
  fun r' c' => if r' = r ∧ c' = c then v else f r' c'

/-- The interior loop of `makePeriodicSystem_` (Spline.hpp lines
1320-1332): for `i = 2 .. n-1` row `i-1` receives `mu_i`, `2`,
`lambda_i` and the right-hand side `d_i`.  One fuel unit per round. -/
noncomputable def periodicRows (s : Spline) (n : ℕ) :
    ℕ → ℕ → ((ℕ → ℕ → ℝ) × (ℕ → ℝ)) → ((ℕ → ℕ → ℝ) × (ℕ → ℝ))
  | 0, _, Md => Md
  | fuel + 1, i, Md =>
    if i < n then
      periodicRows s n fuel (i + 1)
        (upd2 (upd2 (upd2 Md.1 (i - 1) (i - 2) (1 - s.lam i))
            (i - 1) (i - 1) 2) (i - 1) i (s.lam i),
          Function.update Md.2 (i - 1) (s.interiorD i))
    else Md

theorem periodicRows_succ (s : Spline) (n fuel i : ℕ)
    (Md : (ℕ → ℕ → ℝ) × (ℕ → ℝ)) :
    periodicRows s n (fuel + 1) i Md =
      if i < n then
        periodicRows s n fuel (i + 1)
          (upd2 (upd2 (upd2 Md.1 (i - 1) (i - 2) (1 - s.lam i))
              (i - 1) (i - 1) 2) (i - 1) i (s.lam i),
            Function.update Md.2 (i - 1) (s.interiorD i))
      else Md := rfl

/-- The full assembly of `makePeriodicSystem_` (lines 1309-1360) over the
`n = numSamples() - 1` unknown moments: zero-initialised matrix and
right-hand side, the interior loop, then the first row
(`M[0][0] = 2; M[0][1] = lambda_1; M[0][n-1] = mu_1; d[0] = d_1`) and the
last row (`M[n-1][0] = lambda_n; M[n-1][n-2] = mu_n; M[n-1][n-1] = 2;
d[n-1] = d_n`), each entry assignment in source order (later assignments
to a coinciding entry overwrite earlier ones). -/
noncomputable def periodicAssemble (s : Spline) :
    (ℕ → ℕ → ℝ) × (ℕ → ℝ) :=
  let n := s.n - 1
  let Md1 := periodicRows s n n 2 (fun _ _ => 0, fun _ => 0)
  let lambda1 := s.h_ 2 / (s.h_ 1 + s.h_ 2)
  let mu1 := 1 - lambda1
  let dd1 := 6 / (s.h_ 1 + s.h_ 2) *
    ((s.y 2 - s.y 1) / s.h_ 2 - (s.y 1 - s.y 0) / s.h_ 1)
  let M2 := upd2 (upd2 (upd2 Md1.1 0 0 2) 0 1 lambda1) 0 (n - 1) mu1
  let d2 := Function.update Md1.2 0 dd1
  let lambdan := s.h_ 1 / (s.h_ n + s.h_ 1)
  let mun := 1 - lambdan
  let ddn := 6 / (s.h_ n + s.h_ 1) *
    ((s.y 1 - s.y n) / s.h_ 1 - (s.y n - s.y (n - 1)) / s.h_ n)
  let M3 := upd2 (upd2 (upd2 M2 (n - 1) 0 lambdan) (n - 1) (n - 2) mun)
    (n - 1) (n - 1) 2
  let d3 := Function.update d2 (n - 1) ddn
  (M3, d3)

/-- The spline state is one produced by `makePeriodicSpline_` (lines
1120-1142): some vector `z` solves the assembled periodic system (the
solve itself is modelled from the spec — `TridiagonalMatrix::solve` is
not in src/), the moments are the source's cyclic shift of `z`
(`moments[i+1] = moments[i]` downwards, then
`moments[0] = moments[numSamples()-1]`), and the stored slopes derive
from those moments. -/
def PeriodicConstructed (s : Spline) : Prop :=
  ∃ z : ℕ → ℝ,
    (∀ r, r < s.n - 1 →
      (Finset.range (s.n - 1)).sum
        (fun c => (periodicAssemble s).1 r c * z c) =
        (periodicAssemble s).2 r) ∧
    SlopesFromMoments s (fun j => if j = 0 then z (s.n - 2) else z (j - 1))

/-- Derivative of a segment at its left knot is the stored slope there. -/
theorem evalDerivative_left_knot (s : Spline) (i : ℕ)
    (hδ : s.h_ (i + 1) ≠ 0) : s.evalDerivative_ (s.x i) i = s.slope i := by
  unfold evalDerivative_ h00_prime_ h10_prime_ h01_prime_ h11_prime_
  field_simp

/-- Derivative of a segment at its right knot is the stored slope there. -/
theorem evalDerivative_right_knot (s : Spline) (i : ℕ)
    (hδ : s.h_ (i + 1) ≠ 0) :
    s.evalDerivative_ (s.x (i + 1)) i = s.slope (i + 1) := by
  unfold evalDerivative_ h00_prime_ h10_prime_ h01_prime_ h11_prime_ h_
  rw [show (i + 1 - 1 : ℕ) = i from rfl]
  have hδ' : s.x (i + 1) - s.x i ≠ 0 := by
    unfold h_ at hδ
    rw [show (i + 1 - 1 : ℕ) = i from rfl] at hδ
    exact hδ
  field_simp
  ring

/-- The 3-sample "periodic" spline the code builds from x = (0,1,2),
y = (0,1,0): the assembled system (with its overwritten wrap-around
coefficients) is solved by z = (-4, 4), the shifted moments are
(4, -4, 4) and the resulting slopes are (1/3, -1/3, -1/3). -/
noncomputable def periodicBugSpline : Spline :=
  { n := 3
    x := fun i => (i : ℝ)
    y := fun i => if i = 1 then 1 else 0
    slope := fun i => if i = 0 then 1 / 3 else -(1 / 3) }

theorem periodicBugSpline_sorted : SortedX periodicBugSpline := by
  intro i j hij _
  show (i : ℝ) < (j : ℝ)
  exact_mod_cast hij

theorem periodicBugSpline_constructed : PeriodicConstructed periodicBugSpline := by
  refine ⟨fun c => if c = 0 then -4 else 4, ?_, ?_, ?_⟩
  · intro r hr
    have hr' : r < 3 - 1 := hr
    have hn : periodicBugSpline.n - 1 = 2 := rfl
    have hM : (periodicAssemble periodicBugSpline).1 =
        (upd2 (upd2 (upd2
          (upd2 (upd2 (upd2 (fun _ _ => 0) 0 0 2) 0 1
            (periodicBugSpline.h_ 2 / (periodicBugSpline.h_ 1 + periodicBugSpline.h_ 2)))
            0 1 (1 - periodicBugSpline.h_ 2 / (periodicBugSpline.h_ 1 + periodicBugSpline.h_ 2)))
          1 0 (periodicBugSpline.h_ 1 / (periodicBugSpline.h_ 2 + periodicBugSpline.h_ 1)))
          1 0 (1 - periodicBugSpline.h_ 1 / (periodicBugSpline.h_ 2 + periodicBugSpline.h_ 1)))
          1 1 2) := rfl
    have hd : (periodicAssemble periodicBugSpline).2 =
        Function.update (Function.update (fun _ => 0) 0
          (6 / (periodicBugSpline.h_ 1 + periodicBugSpline.h_ 2) *
            ((periodicBugSpline.y 2 - periodicBugSpline.y 1) / periodicBugSpline.h_ 2 -
             (periodicBugSpline.y 1 - periodicBugSpline.y 0) / periodicBugSpline.h_ 1))) 1
          (6 / (periodicBugSpline.h_ 2 + periodicBugSpline.h_ 1) *
            ((periodicBugSpline.y 1 - periodicBugSpline.y 2) / periodicBugSpline.h_ 1 -
             (periodicBugSpline.y 2 - periodicBugSpline.y 1) / periodicBugSpline.h_ 2)) := rfl
    have hx : ∀ i : ℕ, periodicBugSpline.x i = (i : ℝ) := fun _ => rfl
    have hh1 : periodicBugSpline.h_ 1 = 1 := by
      unfold Spline.h_
      rw [hx, hx]
      norm_num
    have hh2 : periodicBugSpline.h_ 2 = 1 := by
      unfold Spline.h_
      rw [hx, hx]
      norm_num
    have hy0 : periodicBugSpline.y 0 = 0 := rfl
    have hy1 : periodicBugSpline.y 1 = 1 := rfl
    have hy2 : periodicBugSpline.y 2 = 0 := rfl
    rw [show periodicBugSpline.n - 1 = 2 from rfl]
    rw [Finset.sum_range_succ, Finset.sum_range_succ, Finset.sum_range_zero]
    rw [hM, hd]
    interval_cases r
    · unfold upd2
      norm_num [Function.update, hh1, hh2, hy0, hy1, hy2]
    · unfold upd2
      norm_num [Function.update, hh1, hh2, hy0, hy1, hy2]
  · intro i hi
    have hi' : i < 3 - 1 := hi
    have hh : ∀ j : ℕ, 1 ≤ j → periodicBugSpline.h_ j = 1 := by
      intro j hj
      unfold Spline.h_
      show ((j : ℝ) - ((j - 1 : ℕ) : ℝ) : ℝ) = 1
      rw [Nat.cast_sub hj]
      norm_num
    interval_cases i
    · show periodicBugSpline.slope 0 = _
      rw [hh 1 (by omega)]
      norm_num [periodicBugSpline]
    · show periodicBugSpline.slope 1 = _
      rw [hh 2 (by omega)]
      norm_num [periodicBugSpline]
  · have hh : periodicBugSpline.h_ 2 = 1 := by
      unfold Spline.h_
      show ((2 : ℕ) : ℝ) - ((1 : ℕ) : ℝ) = 1
      norm_num
    have hy1 : periodicBugSpline.y 1 = 1 := rfl
    have hy2 : periodicBugSpline.y 2 = 0 := rfl
    have hsl2 : periodicBugSpline.slope 2 = -(1 / 3) := rfl
    simp only [show periodicBugSpline.n = 3 from rfl]
    norm_num [hh, hy1, hy2, hsl2]

/-! ### Intersection with a cubic polynomial (claim C6) -/

/-- Modelled from the spec: `invertCubicPolynomial` (PolynomialUtils.hpp,
absent from src/) is taken to find the distinct real roots of the cubic;
`intersectSegment_` (Spline.hpp lines 1666-1688) forms the difference
cubic `(a_(i)-a, b_(i)-b, c_(i)-c, d_(i)-d)` from the source's monomial
coefficients and keeps the roots inside the clamped window
`[max(x_(i), x0), min(x_(i+1), x1)]`. -/
noncomputable def segIntersections (s : Spline) (i : ℕ)
    (x0 x1 a b c d : ℝ) : Set ℝ :=
  {z | (s.a_ i - a) * z ^ 3 + (s.b_ i - b) * z ^ 2 + (s.c_ i - c) * z +
      (s.d_ i - d) = 0 ∧ max (s.x i) x0 ≤ z ∧ z ≤ min (s.x (i + 1)) x1}

/-- The root total `nSol` accumulated by `intersectInterval` (lines
908-919) across the covered segments `segmentIdx_(x0) .. segmentIdx_(x1)`. -/
noncomputable def intersectCount (s : Spline) (x0 x1 a b c d : ℝ) : ℕ :=
  ∑ i in Finset.Icc (s.segmentIdx_ x0) (s.segmentIdx_ x1),
    (s.segIntersections i x0 x1 a b c d).ncard

/-- All roots found across the covered segments. -/
noncomputable def allIntersections (s : Spline) (x0 x1 a b c d : ℝ) :
    Set ℝ :=
  ⋃ i ∈ Finset.Icc (s.segmentIdx_ x0) (s.segmentIdx_ x1),
    s.segIntersections i x0 x1 a b c d

/-- `intersectInterval(x0, x1, a, b, c, d)` (lines 899-926): throws
unless the accumulated root count is exactly one, otherwise returns the
single root found.  Modelled as an Option: `some` of the one found root
(the found set is then a singleton, here taken by its infimum) iff the
count is one, `none` (the thrown exception) otherwise. -/
noncomputable def intersectInterval (s : Spline) (x0 x1 a b c d : ℝ) :
    Option ℝ :=
  if s.intersectCount x0 x1 a b c d = 1 then
    some (sInf (s.allIntersections x0 x1 a b c d))
  else none

/-- A cubic with at least one nonzero coefficient has finitely many real
roots. -/
theorem cubic_roots_finite (A B C D : ℝ)
    (h : ¬(A = 0 ∧ B = 0 ∧ C = 0 ∧ D = 0)) :
    {z : ℝ | A * z ^ 3 + B * z ^ 2 + C * z + D = 0}.Finite := by
  classical
  have hpne : (Polynomial.C A * Polynomial.X ^ 3 +
      Polynomial.C B * Polynomial.X ^ 2 +
      Polynomial.C C * Polynomial.X + Polynomial.C D : Polynomial ℝ) ≠ 0 := by
    intro h0
    refine h ⟨?_, ?_, ?_, ?_⟩
    · have h3 := congrArg (fun p => Polynomial.coeff p 3) h0
      simpa [Polynomial.coeff_add, Polynomial.coeff_C_mul,
        Polynomial.coeff_X_pow, Polynomial.coeff_C, Polynomial.coeff_X] using h3
    · have h2 := congrArg (fun p => Polynomial.coeff p 2) h0
      simpa [Polynomial.coeff_add, Polynomial.coeff_C_mul,
        Polynomial.coeff_X_pow, Polynomial.coeff_C, Polynomial.coeff_X] using h2
    · have h1 := congrArg (fun p => Polynomial.coeff p 1) h0
      simpa [Polynomial.coeff_add, Polynomial.coeff_C_mul,
        Polynomial.coeff_X_pow, Polynomial.coeff_C, Polynomial.coeff_X] using h1
    · have hD := congrArg (fun p => Polynomial.coeff p 0) h0
      simpa [Polynomial.coeff_add, Polynomial.coeff_C_mul,
        Polynomial.coeff_X_pow, Polynomial.coeff_C, Polynomial.coeff_X] using hD
  have hset : {z : ℝ | A * z ^ 3 + B * z ^ 2 + C * z + D = 0} =
      {z : ℝ | Polynomial.IsRoot (Polynomial.C A * Polynomial.X ^ 3 +
        Polynomial.C B * Polynomial.X ^ 2 +
        Polynomial.C C * Polynomial.X + Polynomial.C D) z} := by
    ext z
    simp [Polynomial.IsRoot]
  rw [hset]
  exact Polynomial.finite_setOf_isRoot hpne

theorem xKnot_mono (s : Spline) (hs : SortedX s) {i j : ℕ} (hij : i ≤ j)
    (hj : j < s.n) : s.x i ≤ s.x j := by
  rcases eq_or_lt_of_le hij with he | hl
  · rw [he]
  · exact le_of_lt (hs i j hl hj)

/-- The bisection bracket for any `u` inside the sample range. -/
theorem segmentIdx_bracket (s : Spline) (hs : SortedX s) (hn : 2 ≤ s.n)
    (u : ℝ) (hlo : s.x 0 ≤ u) (hhi : u ≤ s.x (s.n - 1)) :
    s.segmentIdx_ u ≤ s.n - 2 ∧ s.x (s.segmentIdx_ u) ≤ u ∧
      u ≤ s.x (s.segmentIdx_ u + 1) := by
  unfold segmentIdx_
  have hspec := segmentIdxAux_spec s u s.n 0 (s.n - 1) (by omega) (by omega)
  by_cases hend : u < s.x (s.n - 1)
  · exact ⟨by have := hspec.1.2; omega, hspec.2.1 hlo,
      le_of_lt (hspec.2.2.1 hend)⟩
  · have hux : s.x (s.n - 1) ≤ u := le_of_not_lt hend
    have heq := hspec.2.2.2 hs (le_refl _) hn hux
    rw [heq]
    refine ⟨by omega, ?_, ?_⟩
    · exact le_trans (xKnot_mono s hs (show s.n - 1 - 1 ≤ s.n - 1 by omega)
        (by omega)) hux
    · rw [show s.n - 1 - 1 + 1 = s.n - 1 by omega]
      exact hhi

/-- The segment of any `w ∈ [x0, x1]` lies between the segments of the
interval ends. -/
theorem segmentIdx_betw (s : Spline) (hs : SortedX s) (hn : 2 ≤ s.n)
    (x0 x1 w : ℝ) (hd0 : s.x 0 ≤ x0) (hd1 : x1 ≤ s.x (s.n - 1))
    (hw0 : x0 ≤ w) (hw1 : w ≤ x1) :
    s.segmentIdx_ x0 ≤ s.segmentIdx_ w ∧
      s.segmentIdx_ w ≤ s.segmentIdx_ x1 := by
  obtain ⟨hF2, hFl, _⟩ := segmentIdx_bracket s hs hn x0 hd0
    (le_trans (le_trans hw0 hw1) hd1)
  obtain ⟨hj2, hjl, hjr⟩ := segmentIdx_bracket s hs hn w
    (le_trans hd0 hw0) (le_trans hw1 hd1)
  obtain ⟨hL2, _, hLr⟩ := segmentIdx_bracket s hs hn x1
    (le_trans hd0 (le_trans hw0 hw1)) hd1
  constructor
  · by_contra hcon
    push_neg at hcon
    have hstep : s.x (s.segmentIdx_ w + 1) ≤ s.x (s.segmentIdx_ x0) :=
      xKnot_mono s hs (by omega) (by omega)
    have hwx0 : w = x0 := le_antisymm (le_trans hjr (le_trans hstep hFl)) hw0
    rw [hwx0] at hcon
    omega
  · by_contra hcon
    push_neg at hcon
    have hstep : s.x (s.segmentIdx_ x1 + 1) ≤ s.x (s.segmentIdx_ w) :=
      xKnot_mono s hs (by omega) (by omega)
    have hwx1 : w = x1 := le_antisymm hw1 (le_trans hLr (le_trans hstep hjl))
    rw [hwx1] at hcon
    omega

/-- Inside its bracketing segment, `eval` agrees with that segment's
monomial cubic — also when the bisection picks the neighbouring segment
at a shared knot, because adjacent segment cubics agree there. -/
theorem eval_eq_segment_cubic (s : Spline) (hs : SortedX s) (hn : 2 ≤ s.n)
    (i : ℕ) (hi : i ≤ s.n - 2) (w : ℝ) (hwl : s.x i ≤ w)
    (hwr : w ≤ s.x (i + 1)) :
    s.eval w false = s.d_ i + s.c_ i * w + s.b_ i * w ^ 2 + s.a_ i * w ^ 3 := by
  have hδ : ∀ k, k ≤ s.n - 2 → s.h_ (k + 1) ≠ 0 := fun k hk =>
    (h_pos s hs (k + 1) (by omega) (by omega)).ne'
  have hdom0 : s.x 0 ≤ w :=
    le_trans (xKnot_mono s hs (Nat.zero_le i) (by omega)) hwl
  have hdom1 : w ≤ s.x (s.n - 1) :=
    le_trans hwr (xKnot_mono s hs (show i + 1 ≤ s.n - 1 by omega) (by omega))
  obtain ⟨hj2, hjl, hjr⟩ := segmentIdx_bracket s hs hn w hdom0 hdom1
  unfold eval
  rw [if_neg (by simp), if_neg (by simp)]
  set j := s.segmentIdx_ w with hjdef
  rcases Nat.lt_trichotomy i j with hlt | heq | hgt
  · have hle : s.x (i + 1) ≤ s.x j := xKnot_mono s hs (by omega) (by omega)
    have hw1 : w = s.x (i + 1) := le_antisymm hwr (le_trans hle hjl)
    have hji : j = i + 1 := by
      by_contra hne
      have : s.x (i + 1) < s.x j := hs _ _ (by omega) (by omega)
      linarith
    rw [hji, hw1, eval_left_knot]
    have hcubic := eval_eq_monomial s i (hδ i hi) (s.x (i + 1))
    rw [← hcubic, eval_right_knot s hs i (by omega)]
  · rw [← heq]
    exact eval_eq_monomial s i (hδ i hi) w
  · have hle : s.x (j + 1) ≤ s.x i := xKnot_mono s hs (by omega) (by omega)
    have hw1 : w = s.x i := le_antisymm (le_trans hjr hle) hwl
    have hji : i = j + 1 := by
      by_contra hne
      have : s.x (j + 1) < s.x i := hs _ _ (by omega) (by omega)
      linarith
    rw [hw1, show s.x i = s.x (j + 1) by rw [← hji]]
    rw [eval_right_knot s hs j (by omega)]
    have hcubic := eval_eq_monomial s i (hδ i hi) (s.x (j + 1))
    rw [← hcubic, show s.x (j + 1) = s.x i by rw [hji], eval_left_knot, hji]

/-- Claim C6: for every spline and every `[x0, x1]` within its domain,
`intersectInterval(x0, x1, a, b, c, d)` returns the unique `x` in
`[x0, x1]` at which the spline equals `a*x^3 + b*x^2 + c*x + d`, and
fails exactly when the number of roots found across the covered segments
is zero or more than one.  The nondegeneracy hypothesis excludes
segments whose cubic coincides with the query polynomial (there the
root count of the missing `invertCubicPolynomial` is unspecified). -/
theorem C6_intersect (s : Spline) (hs : SortedX s) (hn : 2 ≤ s.n)
    (x0 x1 a b c d : ℝ) (h0 : s.applies x0) (h1 : s.applies x1)
    (h01 : x0 ≤ x1)
    (hnd : ∀ i, i ∈ Finset.Icc (s.segmentIdx_ x0) (s.segmentIdx_ x1) →
      ¬(s.a_ i - a = 0 ∧ s.b_ i - b = 0 ∧ s.c_ i - c = 0 ∧
        s.d_ i - d = 0)) :
    (∀ z, s.intersectInterval x0 x1 a b c d = some z →
      x0 ≤ z ∧ z ≤ x1 ∧
      s.eval z false = a * z ^ 3 + b * z ^ 2 + c * z + d ∧
      ∀ w, x0 ≤ w → w ≤ x1 →
        s.eval w false = a * w ^ 3 + b * w ^ 2 + c * w + d → w = z) ∧
    (s.intersectInterval x0 x1 a b c d = none ↔
      s.intersectCount x0 x1 a b c d ≠ 1) := by
  have hd0 : s.x 0 ≤ x0 := h0.1
  have hd1 : x1 ≤ s.x (s.n - 1) := h1.2
  constructor
  · intro z hz
    unfold intersectInterval at hz
    by_cases hcount : s.intersectCount x0 x1 a b c d = 1
    swap
    · rw [if_neg hcount] at hz
      exact absurd hz (by simp)
    rw [if_pos hcount] at hz
    have hzval : z = sInf (s.allIntersections x0 x1 a b c d) := by
      injection hz with h
      exact h.symm
    unfold intersectCount at hcount
    have hfin : ∀ i ∈ Finset.Icc (s.segmentIdx_ x0) (s.segmentIdx_ x1),
        (s.segIntersections i x0 x1 a b c d).Finite := fun i hi =>
      (cubic_roots_finite (s.a_ i - a) (s.b_ i - b) (s.c_ i - c)
        (s.d_ i - d) (hnd i hi)).subset (fun _ hm => hm.1)
    have hex : ∃ i0 ∈ Finset.Icc (s.segmentIdx_ x0) (s.segmentIdx_ x1),
        (s.segIntersections i0 x0 x1 a b c d).ncard ≠ 0 := by
      by_contra hall
      push_neg at hall
      rw [Finset.sum_eq_zero hall] at hcount
      omega
    obtain ⟨i0, hi0mem, hi0ne⟩ := hex
    have hsplit : (s.segIntersections i0 x0 x1 a b c d).ncard +
        ∑ jj in (Finset.Icc (s.segmentIdx_ x0) (s.segmentIdx_ x1)).erase i0,
          (s.segIntersections jj x0 x1 a b c d).ncard = 1 := by
      rw [← hcount]
      exact Finset.add_sum_erase _
        (fun i => (s.segIntersections i x0 x1 a b c d).ncard) hi0mem
    have hi0card : (s.segIntersections i0 x0 x1 a b c d).ncard = 1 := by
      omega
    have hrestsum : ∑ jj in
        (Finset.Icc (s.segmentIdx_ x0) (s.segmentIdx_ x1)).erase i0,
        (s.segIntersections jj x0 x1 a b c d).ncard = 0 := by omega
    have hempty : ∀ jj ∈ Finset.Icc (s.segmentIdx_ x0) (s.segmentIdx_ x1),
        jj ≠ i0 → s.segIntersections jj x0 x1 a b c d = ∅ := by
      intro jj hjj hne
      have h0card := Finset.sum_eq_zero_iff.mp hrestsum jj
        (Finset.mem_erase.mpr ⟨hne, hjj⟩)
      exact (Set.ncard_eq_zero
        (hfin jj hjj)).mp h0card
    obtain ⟨z0, hz0⟩ := Set.ncard_eq_one.mp hi0card
    have hU : s.allIntersections x0 x1 a b c d = {z0} := by
      unfold allIntersections
      ext w
      simp only [Set.mem_iUnion, Set.mem_singleton_iff]
      constructor
      · rintro ⟨i, hi, hwS⟩
        by_cases hii : i = i0
        · rw [hii, hz0] at hwS
          exact hwS
        · rw [hempty i hi hii] at hwS
          exact absurd hwS (Set.not_mem_empty w)
      · intro hweq
        rw [hweq]
        exact ⟨i0, hi0mem, by rw [hz0]; exact Set.mem_singleton z0⟩
    have hzz0 : z = z0 := by
      rw [hzval, hU, csInf_singleton]
    subst hzz0
    have hz0mem : z ∈ s.segIntersections i0 x0 x1 a b c d := by
      rw [hz0]
      exact Set.mem_singleton z
    obtain ⟨hroot, hclampl, hclampr⟩ := hz0mem
    have hx0z : x0 ≤ z := le_trans (le_max_right _ _) hclampl
    have hzx1 : z ≤ x1 := le_trans hclampr (min_le_right _ _)
    have hxi0 : s.x i0 ≤ z := le_trans (le_max_left _ _) hclampl
    have hzxi1 : z ≤ s.x (i0 + 1) := le_trans hclampr (min_le_left _ _)
    have hiL : i0 ≤ s.n - 2 := by
      have h2m := (Finset.mem_Icc.mp hi0mem).2
      have hbr := (segmentIdx_bracket s hs hn x1 (le_trans hd0 h01) hd1).1
      omega
    refine ⟨hx0z, hzx1, ?_, ?_⟩
    · rw [eval_eq_segment_cubic s hs hn i0 hiL z hxi0 hzxi1]
      linear_combination hroot
    · intro w hw0 hw1 hweval
      have hjmem : s.segmentIdx_ w ∈
          Finset.Icc (s.segmentIdx_ x0) (s.segmentIdx_ x1) :=
        Finset.mem_Icc.mpr (segmentIdx_betw s hs hn x0 x1 w hd0 hd1 hw0 hw1)
      obtain ⟨hj2, hjl, hjr⟩ := segmentIdx_bracket s hs hn w
        (le_trans hd0 hw0) (le_trans hw1 hd1)
      rw [eval_eq_segment_cubic s hs hn (s.segmentIdx_ w) hj2 w hjl hjr]
        at hweval
      have hwS : w ∈ s.segIntersections (s.segmentIdx_ w) x0 x1 a b c d :=
        ⟨by linear_combination hweval, max_le hjl hw0, le_min hjr hw1⟩
      by_cases hji0 : s.segmentIdx_ w = i0
      · rw [hji0, hz0] at hwS
        exact hwS
      · rw [hempty _ hjmem hji0] at hwS
        exact absurd hwS (Set.not_mem_empty w)
  · unfold intersectInterval
    by_cases hcount : s.intersectCount x0 x1 a b c d = 1
    · rw [if_pos hcount]
      simp [hcount]
    · rw [if_neg hcount]
      simp [hcount]

theorem lineSpline_sorted : SortedX lineSpline := by
  intro i j hij hj
  have hj' : j < 2 := hj
  have hi0 : i = 0 := by omega
  have hj1 : j = 1 := by omega
  subst hi0
  subst hj1
  show (0 : ℝ) < 1
  norm_num

theorem lineSpline_segAll (u : ℝ) : lineSpline.segmentIdx_ u = 0 := by
  show segmentIdxAux lineSpline u (1 + 1) 0 1 = 0
  rw [segmentIdxAux_succ, if_neg (by omega : ¬ 0 + 1 < 1)]

theorem lineSpline_c0 : lineSpline.c_ 0 = 1 := by
  unfold Spline.c_ evalDerivative_ h00_prime_ h10_prime_ h01_prime_
    h11_prime_ Spline.h_
  norm_num [lineSpline]

/-- Claim C6, witness: intersecting the straight-line spline through
(0,0), (1,1) with the constant polynomial 1/2 over [0, 1]. -/
theorem C6_intersect_witness :
    (∀ z, lineSpline.intersectInterval 0 1 0 0 0 (1 / 2) = some z →
      (0 : ℝ) ≤ z ∧ z ≤ 1 ∧
      lineSpline.eval z false = 0 * z ^ 3 + 0 * z ^ 2 + 0 * z + 1 / 2 ∧
      ∀ w, (0 : ℝ) ≤ w → w ≤ 1 →
        lineSpline.eval w false = 0 * w ^ 3 + 0 * w ^ 2 + 0 * w + 1 / 2 →
        w = z) ∧
    (lineSpline.intersectInterval 0 1 0 0 0 (1 / 2) = none ↔
      lineSpline.intersectCount 0 1 0 0 0 (1 / 2) ≠ 1) := by
  have hnd : ∀ i, i ∈ Finset.Icc (lineSpline.segmentIdx_ 0)
      (lineSpline.segmentIdx_ 1) →
      ¬(lineSpline.a_ i - 0 = 0 ∧ lineSpline.b_ i - 0 = 0 ∧
        lineSpline.c_ i - 0 = 0 ∧ lineSpline.d_ i - 1 / 2 = 0) := by
    intro i hi
    rw [Finset.mem_Icc, lineSpline_segAll, lineSpline_segAll] at hi
    have hi0 : i = 0 := by omega
    subst hi0
    rintro ⟨-, -, hc, -⟩
    rw [lineSpline_c0] at hc
    norm_num at hc
  exact C6_intersect lineSpline lineSpline_sorted (by norm_num [lineSpline])
    0 1 0 0 0 (1 / 2)
    (by constructor <;> norm_num [Spline.applies, Spline.xMin, Spline.xMax, lineSpline])
    (by constructor <;> norm_num [Spline.applies, Spline.xMin, Spline.xMax, lineSpline])
    (by norm_num) hnd

/-! ### Monotonicity classification (claim C4) -/

/-- `monotonic_(i, x0, x1, r)` (Spline.hpp lines 1599-1660): classifies
the sign of the derivative of segment `i` on `(x0, x1)` from the
monomial coefficients `a = 3*a_(i)`, `b = 2*b_(i)`, `c = c_(i)` of the
derivative, and updates the accumulator `r`.  Returned as the pair
(return value, updated `r`). -/
noncomputable def monotonicSeg (s : Spline) (i : ℕ) (x0 x1 : ℝ) (r : ℤ) :
    ℤ × ℤ :=
  let a := 3 * s.a_ i
  let b := 2 * s.b_ i
  let c := s.c_ i
  if |a| < 1 / 10 ^ 20 ∧ |b| < 1 / 10 ^ 20 ∧ |c| < 1 / 10 ^ 20 then (3, r)
  else if b * b - 4 * a * c < 0 then
    if x0 * (x0 * a + b) + c > 0 then (1, if r = 3 ∨ r = 1 then 1 else 0)
    else (-1, if r = 3 ∨ r = -1 then -1 else 0)
  else
    let sdisc := Real.sqrt (b * b - 4 * a * c)
    let xE1 := (-b + sdisc) / (2 * a)
    let xE2 := (-b - sdisc) / (2 * a)
    if sdisc = 0 then
      let x0' := if xE1 = x0 then x1 else x0
      if x0' * (x0' * a + b) + c > 0 then (1, if r = 3 ∨ r = 1 then 1 else 0)
      else (-1, if r = 3 ∨ r = -1 then -1 else 0)
    else if (x0 < xE1 ∧ xE1 < x1) ∨ (x0 < xE2 ∧ xE2 < x1) then (0, 0)
    else
      let xm := (x0 + x1) / 2
      if xm * (xm * a + b) + c > 0 then (1, if r = 3 ∨ r = 1 then 1 else 0)
      else (-1, if r = 3 ∨ r = -1 then -1 else 0)

/-- The interior loop of `monotonic` (lines 972-976): for `i` while
`i < iEnd - 1`, run `monotonic_` on the full segment `[x_(i), x_(i+1)]`
and return 0 early when the accumulator becomes 0.  `Sum.inl v` encodes
the early return with value `v`, `Sum.inr r` normal loop exit with
accumulator `r`; one fuel unit per round. -/
noncomputable def monotonicLoop (s : Spline) (iEnd : ℕ) :
    ℕ → ℕ → ℤ → (ℤ ⊕ ℤ)
  | 0, _, r => Sum.inr r
  | fuel + 1, i, r =>
    if i < iEnd - 1 then
      if (s.monotonicSeg i (s.x i) (s.x (i + 1)) r).2 = 0 then Sum.inl 0
      else monotonicLoop s iEnd fuel (i + 1)
        (s.monotonicSeg i (s.x i) (s.x (i + 1)) r).2
    else Sum.inr r

theorem monotonicLoop_succ (s : Spline) (iEnd fuel i : ℕ) (r : ℤ) :
    monotonicLoop s iEnd (fuel + 1) i r =
      if i < iEnd - 1 then
        if (s.monotonicSeg i (s.x i) (s.x (i + 1)) r).2 = 0 then Sum.inl 0
        else monotonicLoop s iEnd fuel (i + 1)
          (s.monotonicSeg i (s.x i) (s.x (i + 1)) r).2
      else Sum.inr r := rfl

/-- `monotonic(x0, x1, extrapolate)` (lines 936-997) in release
semantics: swap to `x0 < x1`, the below-range accumulator seeding and
clamp, the single-segment case, the first partial segment, the interior
loop (fuel `n + 1` exceeds its at most `n` rounds), the above-range
endpoint-slope case, and the final segment. -/
noncomputable def monotonic (s : Spline) (x0 x1 : ℝ) (extrapolate : Bool) :
    ℤ :=
  let x0a := if x0 > x1 then x1 else x0
  let x1a := if x0 > x1 then x0 else x1
  let r1 : ℤ :=
    if x0a < s.xMin then
      (if |s.evalDerivative_ s.xMin 0| < 1 / 10 ^ 20 then
        (if s.evalDerivative_ s.xMin 0 < 0 then -1 else 1)
      else 3)
    else 3
  let x0b := if x0a < s.xMin then s.xMin else x0a
  let i := s.segmentIdx_ x0b
  if s.x (i + 1) ≥ x1a then (s.monotonicSeg i x0b x1a r1).2
  else
    let r2 := (s.monotonicSeg i x0b (s.x (i + 1)) r1).2
    let iEnd := s.segmentIdx_ x1a
    match monotonicLoop s iEnd (s.n + 1) (i + 1) r2 with
    | Sum.inl v => v
    | Sum.inr r3 =>
      if x1a > s.xMax then
        (if s.evalDerivative_ s.xMax (s.n - 2) < 0 then
          (if r3 < 0 ∨ r3 = 3 then -1 else 0)
        else if s.evalDerivative_ s.xMax (s.n - 2) > 0 then
          (if r3 > 0 ∨ r3 = 3 then 1 else 0)
        else r3)
      else (s.monotonicSeg iEnd (s.x iEnd) x1a r3).2

/-- Secant slopes `delta[k]` of `makeMonotonicSpline_` (lines
1377-1379). -/
noncomputable def secant (s : Spline) (k : ℕ) : ℝ :=
  (s.y (k + 1) - s.y k) / (s.x (k + 1) - s.x k)

/-- The "raw" slopes of `makeMonotonicSpline_` (lines 1382-1385):
interior points get the secant average, the end points the adjacent
secant. -/
noncomputable def rawSlopes (s : Spline) : ℕ → ℝ :=
  fun k =>
    if k = 0 then s.secant 0
    else if k = s.n - 1 then s.secant (s.n - 2)
    else (s.secant (k - 1) + s.secant k) / 2

/-- The Fritsch-Carlson post-processing loop of `makeMonotonicSpline_`
(lines 1388-1410): for `k` while `k < n - 1`, flatten on tiny secants
(skipping the next index), zero a slope of the wrong sign, or rescale
`(alpha, beta)` onto the circle of radius 3.  One fuel unit per
round. -/
noncomputable def monoLimitLoop (s : Spline) : ℕ → ℕ → (ℕ → ℝ) → (ℕ → ℝ)
  | 0, _, sl => sl
  | fuel + 1, k, sl =>
    if k < s.n - 1 then
      if |s.secant k| < 1 / 10 ^ 50 then
        monoLimitLoop s fuel (k + 2)
          (Function.update (Function.update sl k 0) (k + 1) 0)
      else
        if sl k / s.secant k < 0 ∨ (0 < k ∧ sl k / s.secant (k - 1) < 0) then
          monoLimitLoop s fuel (k + 1) (Function.update sl k 0)
        else if (sl k / s.secant k) * (sl k / s.secant k) +
            (sl (k + 1) / s.secant k) * (sl (k + 1) / s.secant k) >
            3 * 3 then
          monoLimitLoop s fuel (k + 1)
            (Function.update (Function.update sl k
                (3 / Real.sqrt ((sl k / s.secant k) * (sl k / s.secant k) +
                  (sl (k + 1) / s.secant k) * (sl (k + 1) / s.secant k)) *
                  (sl k / s.secant k) * s.secant k))
              (k + 1)
              (3 / Real.sqrt ((sl k / s.secant k) * (sl k / s.secant k) +
                  (sl (k + 1) / s.secant k) * (sl (k + 1) / s.secant k)) *
                  (sl (k + 1) / s.secant k) * s.secant k))
        else monoLimitLoop s fuel (k + 1) sl
    else sl

theorem monoLimitLoop_succ (s : Spline) (fuel k : ℕ) (sl : ℕ → ℝ) :
    monoLimitLoop s (fuel + 1) k sl =
      if k < s.n - 1 then
        if |s.secant k| < 1 / 10 ^ 50 then
          monoLimitLoop s fuel (k + 2)
            (Function.update (Function.update sl k 0) (k + 1) 0)
        else
          if sl k / s.secant k < 0 ∨ (0 < k ∧ sl k / s.secant (k - 1) < 0) then
            monoLimitLoop s fuel (k + 1) (Function.update sl k 0)
          else if (sl k / s.secant k) * (sl k / s.secant k) +
              (sl (k + 1) / s.secant k) * (sl (k + 1) / s.secant k) >
              3 * 3 then
            monoLimitLoop s fuel (k + 1)
              (Function.update (Function.update sl k
                  (3 / Real.sqrt ((sl k / s.secant k) * (sl k / s.secant k) +
                    (sl (k + 1) / s.secant k) * (sl (k + 1) / s.secant k)) *
                    (sl k / s.secant k) * s.secant k))
                (k + 1)
                (3 / Real.sqrt ((sl k / s.secant k) * (sl k / s.secant k) +
                    (sl (k + 1) / s.secant k) * (sl (k + 1) / s.secant k)) *
                    (sl (k + 1) / s.secant k) * s.secant k))
          else monoLimitLoop s fuel (k + 1) sl
      else sl := rfl

/-- `makeMonotonicSpline_` (lines 1370-1411): raw slopes followed by the
limiter loop (fuel `n` exceeds its at most `n - 1` rounds). -/
noncomputable def makeMonotonicSlopes (s : Spline) : ℕ → ℝ :=
  monoLimitLoop s s.n 0 (rawSlopes s)

/-- The 4-sample monotone-constructed spline from x = (0,1,2,3),
y = (0,1,0,1): the raw slopes are (1, 0, 0, 1) and the Fritsch-Carlson
limiter leaves them unchanged. -/
noncomputable def monoBugSpline : Spline :=
  { n := 4
    x := fun i => (i : ℝ)
    y := fun i => if i = 1 ∨ i = 3 then 1 else 0
    slope := fun i => if i = 0 ∨ i = 3 then 1 else 0 }

/-- Claim C7: for every Periodic spline, `evalDerivative(xMin)` equals
`evalDerivative(xMax)` and `evalSecondDerivative(xMin)` equals
`evalSecondDerivative(xMax)`.  The claim FAILS on the code:
`periodicBugSpline` is exactly what the periodic constructor builds from
the three samples x = (0,1,2), y = (0,1,0) — with numSamples = 3 the
first-row write `M[0][n-1] = mu_1` lands on `M[0][1]`, overwriting
`lambda_1`, and the last-row write `M[n-1][n-2] = mu_n` lands on
`M[1][0]`, overwriting `lambda_n`, so the solved system is not the
periodic continuity system — and its first derivatives at the two
boundary points are 1/3 versus -1/3, its second derivatives 16/3
versus 4. -/
theorem C7_periodic_code_bug :
    PeriodicConstructed periodicBugSpline ∧
    periodicBugSpline.evalDerivative periodicBugSpline.xMin false = 1 / 3 ∧
    periodicBugSpline.evalDerivative periodicBugSpline.xMax false = -(1 / 3) ∧
    periodicBugSpline.evalDerivative periodicBugSpline.xMin false ≠
      periodicBugSpline.evalDerivative periodicBugSpline.xMax false ∧
    periodicBugSpline.evalSecondDerivative periodicBugSpline.xMin false = 16 / 3 ∧
    periodicBugSpline.evalSecondDerivative periodicBugSpline.xMax false = 4 ∧
    periodicBugSpline.evalSecondDerivative periodicBugSpline.xMin false ≠
      periodicBugSpline.evalSecondDerivative periodicBugSpline.xMax false := by
  have hsort := periodicBugSpline_sorted
  have hn2 : 2 ≤ periodicBugSpline.n := by
    show (2 : ℕ) ≤ 3
    omega
  have hxmin : periodicBugSpline.xMin = periodicBugSpline.x 0 := rfl
  have hxmax : periodicBugSpline.xMax = periodicBugSpline.x 2 := rfl
  have hs0 : periodicBugSpline.segmentIdx_ periodicBugSpline.xMin = 0 := by
    rw [hxmin, segmentIdx_at_sample _ hsort hn2 0 (by show (0 : ℕ) < 3; omega)]
    rw [show periodicBugSpline.n = 3 from rfl]
    decide
  have hs2 : periodicBugSpline.segmentIdx_ periodicBugSpline.xMax = 1 := by
    rw [hxmax, segmentIdx_at_sample _ hsort hn2 2 (by show (2 : ℕ) < 3; omega)]
    rw [show periodicBugSpline.n = 3 from rfl]
    decide
  have hh1 : periodicBugSpline.h_ 1 = 1 := by
    unfold Spline.h_
    show ((1 : ℕ) : ℝ) - ((0 : ℕ) : ℝ) = 1
    norm_num
  have hh2 : periodicBugSpline.h_ 2 = 1 := by
    unfold Spline.h_
    show ((2 : ℕ) : ℝ) - ((1 : ℕ) : ℝ) = 1
    norm_num
  have hd1 : periodicBugSpline.evalDerivative periodicBugSpline.xMin false =
      1 / 3 := by
    unfold evalDerivative
    rw [if_neg (by simp), if_neg (by simp), hs0, hxmin]
    rw [evalDerivative_left_knot _ 0 (by rw [hh1]; norm_num)]
    show (if (0 : ℕ) = 0 then (1 : ℝ) / 3 else -(1 / 3)) = 1 / 3
    norm_num
  have hd2 : periodicBugSpline.evalDerivative periodicBugSpline.xMax false =
      -(1 / 3) := by
    unfold evalDerivative
    rw [if_neg (by simp), if_neg (by simp), hs2, hxmax]
    have hδ : periodicBugSpline.h_ (1 + 1) ≠ 0 := by
      show periodicBugSpline.h_ 2 ≠ 0
      rw [hh2]
      norm_num
    calc periodicBugSpline.evalDerivative_ (periodicBugSpline.x 2) 1
        = periodicBugSpline.slope 2 := evalDerivative_right_knot _ 1 hδ
      _ = -(1 / 3) := by
        show (if (2 : ℕ) = 0 then (1 : ℝ) / 3 else -(1 / 3)) = -(1 / 3)
        norm_num
  have hsd1 : periodicBugSpline.evalSecondDerivative periodicBugSpline.xMin
      false = 16 / 3 := by
    unfold evalSecondDerivative
    rw [if_neg (by simp), hs0, hxmin]
    unfold evalDerivative2_ h00_prime2_ h10_prime2_ h01_prime2_ h11_prime2_
      Spline.h_
    norm_num [periodicBugSpline]
  have hsd2 : periodicBugSpline.evalSecondDerivative periodicBugSpline.xMax
      false = 4 := by
    unfold evalSecondDerivative
    rw [if_neg (by simp), hs2, hxmax]
    unfold evalDerivative2_ h00_prime2_ h10_prime2_ h01_prime2_ h11_prime2_
      Spline.h_
    norm_num [periodicBugSpline]
  refine ⟨periodicBugSpline_constructed, hd1, hd2, ?_, hsd1, hsd2, ?_⟩
  · rw [hd1, hd2]
    norm_num
  · rw [hsd1, hsd2]
    norm_num

theorem monoBug_x (i : ℕ) : monoBugSpline.x i = (i : ℝ) := rfl

theorem monoBug_n : monoBugSpline.n = 4 := rfl

theorem monoBug_sorted : SortedX monoBugSpline := by
  intro i j hij _
  show (i : ℝ) < (j : ℝ)
  exact_mod_cast hij

theorem monoBug_h (j : ℕ) (hj : 1 ≤ j) : monoBugSpline.h_ j = 1 := by
  unfold Spline.h_
  show ((j : ℝ) - ((j - 1 : ℕ) : ℝ) : ℝ) = 1
  rw [Nat.cast_sub hj]
  norm_num

theorem monoBug_secant0 : monoBugSpline.secant 0 = 1 := by
  unfold secant
  norm_num [monoBugSpline]

theorem monoBug_secant1 : monoBugSpline.secant 1 = -1 := by
  unfold secant
  norm_num [monoBugSpline]

theorem monoBug_secant2 : monoBugSpline.secant 2 = 1 := by
  unfold secant
  norm_num [monoBugSpline]

theorem monoBug_raw0 : rawSlopes monoBugSpline 0 = 1 := by
  unfold rawSlopes
  norm_num [monoBug_secant0]

theorem monoBug_raw1 : rawSlopes monoBugSpline 1 = 0 := by
  unfold rawSlopes
  rw [if_neg (by omega), if_neg (by rw [monoBug_n]; omega)]
  rw [show (1 - 1 : ℕ) = 0 from rfl, monoBug_secant0, monoBug_secant1]
  norm_num

theorem monoBug_raw2 : rawSlopes monoBugSpline 2 = 0 := by
  unfold rawSlopes
  rw [if_neg (by omega), if_neg (by rw [monoBug_n]; omega)]
  rw [show (2 - 1 : ℕ) = 1 from rfl, monoBug_secant1, monoBug_secant2]
  norm_num

theorem monoBug_raw3 : rawSlopes monoBugSpline 3 = 1 := by
  unfold rawSlopes
  rw [if_neg (by omega), if_pos (by rw [monoBug_n])]
  rw [show monoBugSpline.n - 2 = 2 from rfl, monoBug_secant2]

theorem monoBug_a0 : monoBugSpline.a_ 0 = -1 := by
  have hval : monoBugSpline.evalDerivative3_ 0 0 = -6 := by
    unfold evalDerivative3_ h00_prime3_ h10_prime3_ h01_prime3_ h11_prime3_
      Spline.h_
    norm_num [monoBugSpline]
  have hmon := evalDerivative3_eq_monomial monoBugSpline 0
    (by show monoBugSpline.h_ 1 ≠ 0; rw [monoBug_h 1 (by omega)]; norm_num) 0
  rw [hval] at hmon
  linarith

theorem monoBug_b0 : monoBugSpline.b_ 0 = 1 := by
  have hval : monoBugSpline.evalDerivative2_ 0 0 = 2 := by
    unfold evalDerivative2_ h00_prime2_ h10_prime2_ h01_prime2_ h11_prime2_
      Spline.h_
    norm_num [monoBugSpline]
  have hmon := evalDerivative2_eq_monomial monoBugSpline 0
    (by show monoBugSpline.h_ 1 ≠ 0; rw [monoBug_h 1 (by omega)]; norm_num) 0
  rw [hval] at hmon
  linarith

theorem monoBug_c0 : monoBugSpline.c_ 0 = 1 := by
  unfold Spline.c_ evalDerivative_ h00_prime_ h10_prime_ h01_prime_
    h11_prime_ Spline.h_
  norm_num [monoBugSpline]

theorem monoBug_a1 : monoBugSpline.a_ 1 = 2 := by
  have hval : monoBugSpline.evalDerivative3_ 0 1 = 12 := by
    unfold evalDerivative3_ h00_prime3_ h10_prime3_ h01_prime3_ h11_prime3_
      Spline.h_
    norm_num [monoBugSpline]
  have hmon := evalDerivative3_eq_monomial monoBugSpline 1
    (by show monoBugSpline.h_ 2 ≠ 0; rw [monoBug_h 2 (by omega)]; norm_num) 0
  rw [hval] at hmon
  linarith

theorem monoBug_b1 : monoBugSpline.b_ 1 = -9 := by
  have hval : monoBugSpline.evalDerivative2_ 0 1 = -18 := by
    unfold evalDerivative2_ h00_prime2_ h10_prime2_ h01_prime2_ h11_prime2_
      Spline.h_
    norm_num [monoBugSpline]
  have hmon := evalDerivative2_eq_monomial monoBugSpline 1
    (by show monoBugSpline.h_ 2 ≠ 0; rw [monoBug_h 2 (by omega)]; norm_num) 0
  rw [hval] at hmon
  linarith

theorem monoBug_c1 : monoBugSpline.c_ 1 = 12 := by
  unfold Spline.c_ evalDerivative_ h00_prime_ h10_prime_ h01_prime_
    h11_prime_ Spline.h_
  norm_num [monoBugSpline]

theorem monoBug_a2 : monoBugSpline.a_ 2 = -1 := by
  have hval : monoBugSpline.evalDerivative3_ 0 2 = -6 := by
    unfold evalDerivative3_ h00_prime3_ h10_prime3_ h01_prime3_ h11_prime3_
      Spline.h_
    norm_num [monoBugSpline]
  have hmon := evalDerivative3_eq_monomial monoBugSpline 2
    (by show monoBugSpline.h_ 3 ≠ 0; rw [monoBug_h 3 (by omega)]; norm_num) 0
  rw [hval] at hmon
  linarith

theorem monoBug_b2 : monoBugSpline.b_ 2 = 8 := by
  have hval : monoBugSpline.evalDerivative2_ 0 2 = 16 := by
    unfold evalDerivative2_ h00_prime2_ h10_prime2_ h01_prime2_ h11_prime2_
      Spline.h_
    norm_num [monoBugSpline]
  have hmon := evalDerivative2_eq_monomial monoBugSpline 2
    (by show monoBugSpline.h_ 3 ≠ 0; rw [monoBug_h 3 (by omega)]; norm_num) 0
  rw [hval] at hmon
  linarith

theorem monoBug_c2 : monoBugSpline.c_ 2 = -20 := by
  unfold Spline.c_ evalDerivative_ h00_prime_ h10_prime_ h01_prime_
    h11_prime_ Spline.h_
  norm_num [monoBugSpline]

theorem monoBug_seg_zero : monoBugSpline.segmentIdx_ 0 = 0 := by
  rw [show (0 : ℝ) = monoBugSpline.x 0 by rw [monoBug_x]; norm_num]
  rw [segmentIdx_at_sample _ monoBug_sorted (by rw [monoBug_n]; omega) 0
    (by rw [monoBug_n]; omega)]
  rw [monoBug_n]
  decide

theorem monoBug_seg_three : monoBugSpline.segmentIdx_ 3 = 2 := by
  rw [show (3 : ℝ) = monoBugSpline.x 3 by rw [monoBug_x]; norm_num]
  rw [segmentIdx_at_sample _ monoBug_sorted (by rw [monoBug_n]; omega) 3
    (by rw [monoBug_n]; omega)]
  rw [monoBug_n]
  decide

theorem monoBug_seg_half : monoBugSpline.segmentIdx_ (1 / 2) = 0 := by
  show segmentIdxAux monoBugSpline (1 / 2) (3 + 1) 0 3 = 0
  rw [segmentIdxAux_succ, if_pos (by omega : 0 + 1 < 3)]
  rw [show ((0 + 3) / 2 : ℕ) = 1 from rfl]
  rw [if_pos (show monoBugSpline.x 1 > 1 / 2 by rw [monoBug_x]; norm_num)]
  show segmentIdxAux monoBugSpline (1 / 2) (2 + 1) 0 1 = 0
  rw [segmentIdxAux_succ, if_neg (by omega : ¬ 0 + 1 < 1)]

theorem monoBug_seg_threehalf : monoBugSpline.segmentIdx_ (3 / 2) = 1 := by
  show segmentIdxAux monoBugSpline (3 / 2) (3 + 1) 0 3 = 1
  rw [segmentIdxAux_succ, if_pos (by omega : 0 + 1 < 3)]
  rw [show ((0 + 3) / 2 : ℕ) = 1 from rfl]
  rw [if_neg (show ¬ monoBugSpline.x 1 > 3 / 2 by rw [monoBug_x]; norm_num)]
  show segmentIdxAux monoBugSpline (3 / 2) (2 + 1) 1 3 = 1
  rw [segmentIdxAux_succ, if_pos (by omega : 1 + 1 < 3)]
  rw [show ((1 + 3) / 2 : ℕ) = 2 from rfl]
  rw [if_pos (show monoBugSpline.x 2 > 3 / 2 by rw [monoBug_x]; norm_num)]
  show segmentIdxAux monoBugSpline (3 / 2) (1 + 1) 1 2 = 1
  rw [segmentIdxAux_succ, if_neg (by omega : ¬ 1 + 1 < 2)]

theorem monoBug_msg0 : monoBugSpline.monotonicSeg 0 0 1 3 = (1, 1) := by
  have h16 : Real.sqrt 16 = 4 := by
    rw [show (16 : ℝ) = 4 ^ 2 by norm_num,
      Real.sqrt_sq (by norm_num : (0 : ℝ) ≤ 4)]
  simp only [monotonicSeg, monoBug_a0, monoBug_b0, monoBug_c0]
  norm_num [h16, abs_lt]

theorem monoBug_msg1 : monoBugSpline.monotonicSeg 1 1 2 1 = (-1, 0) := by
  have h36 : Real.sqrt 36 = 6 := by
    rw [show (36 : ℝ) = 6 ^ 2 by norm_num,
      Real.sqrt_sq (by norm_num : (0 : ℝ) ≤ 6)]
  simp only [monotonicSeg, monoBug_a1, monoBug_b1, monoBug_c1]
  norm_num [h36, abs_lt]

theorem monoBug_msg2 : monoBugSpline.monotonicSeg 2 2 3 1 = (1, 1) := by
  have h16 : Real.sqrt 16 = 4 := by
    rw [show (16 : ℝ) = 4 ^ 2 by norm_num,
      Real.sqrt_sq (by norm_num : (0 : ℝ) ≤ 4)]
  simp only [monotonicSeg, monoBug_a2, monoBug_b2, monoBug_c2]
  norm_num [h16, abs_lt]

theorem monoBug_limit :
    makeMonotonicSlopes monoBugSpline = rawSlopes monoBugSpline := by
  have e0 : monoLimitLoop monoBugSpline (3 + 1) 0 (rawSlopes monoBugSpline) =
      monoLimitLoop monoBugSpline (2 + 1) 1 (rawSlopes monoBugSpline) := by
    rw [monoLimitLoop_succ]
    rw [if_pos (show 0 < monoBugSpline.n - 1 by rw [monoBug_n]; omega)]
    rw [if_neg (by rw [monoBug_secant0]; norm_num)]
    rw [if_neg (by rw [monoBug_raw0, monoBug_secant0]; norm_num)]
    rw [if_neg (by rw [monoBug_raw0, monoBug_raw1, monoBug_secant0]; norm_num)]
  have e1 : monoLimitLoop monoBugSpline (2 + 1) 1 (rawSlopes monoBugSpline) =
      monoLimitLoop monoBugSpline (1 + 1) 2 (rawSlopes monoBugSpline) := by
    rw [monoLimitLoop_succ]
    rw [if_pos (show 1 < monoBugSpline.n - 1 by rw [monoBug_n]; omega)]
    rw [if_neg (by rw [monoBug_secant1]; rw [abs_neg, abs_one]; norm_num)]
    rw [if_neg (by
      rw [monoBug_raw1, monoBug_secant1, show (1 - 1 : ℕ) = 0 from rfl,
        monoBug_secant0]
      norm_num)]
    rw [if_neg (by rw [monoBug_raw1, monoBug_raw2, monoBug_secant1]; norm_num)]
  have e2 : monoLimitLoop monoBugSpline (1 + 1) 2 (rawSlopes monoBugSpline) =
      monoLimitLoop monoBugSpline (0 + 1) 3 (rawSlopes monoBugSpline) := by
    rw [monoLimitLoop_succ]
    rw [if_pos (show 2 < monoBugSpline.n - 1 by rw [monoBug_n]; omega)]
    rw [if_neg (by rw [monoBug_secant2]; norm_num)]
    rw [if_neg (by
      rw [monoBug_raw2, monoBug_secant2, show (2 - 1 : ℕ) = 1 from rfl,
        monoBug_secant1]
      norm_num)]
    rw [if_neg (by rw [monoBug_raw2, monoBug_raw3, monoBug_secant2]; norm_num)]
  have e3 : monoLimitLoop monoBugSpline (0 + 1) 3 (rawSlopes monoBugSpline) =
      rawSlopes monoBugSpline := by
    rw [monoLimitLoop_succ]
    rw [if_neg (show ¬ 3 < monoBugSpline.n - 1 by rw [monoBug_n]; omega)]
  show monoLimitLoop monoBugSpline (3 + 1) 0 (rawSlopes monoBugSpline) =
    rawSlopes monoBugSpline
  rw [e0, e1, e2, e3]

/-- Claim C4: for every spline and every `x0 < x1` within its domain,
`monotonic(x0, x1)` classifies the derivative sign over EVERY spline
segment overlapped by `[x0, x1]`, returning 0 on mixed signs.  The claim
FAILS on the code: the interior loop `for (; i < iEnd - 1; ++i)` (line
972) never visits segment `iEnd - 1`.  On the monotone-constructed
spline from x = (0,1,2,3), y = (0,1,0,1) (whose limiter leaves the raw
slopes (1,0,0,1) unchanged), `monotonic(0, 3)` returns 1 (Increasing)
although the skipped middle segment is classified -1 by `monotonic_`
itself and the true derivative is +5/4 at x = 1/2 but -3/2 at x = 3/2
— mixed signs, so the documented answer is 0 (NonMonotonic). -/
theorem C4_monotonic_code_bug :
    makeMonotonicSlopes monoBugSpline 0 = monoBugSpline.slope 0 ∧
    makeMonotonicSlopes monoBugSpline 1 = monoBugSpline.slope 1 ∧
    makeMonotonicSlopes monoBugSpline 2 = monoBugSpline.slope 2 ∧
    makeMonotonicSlopes monoBugSpline 3 = monoBugSpline.slope 3 ∧
    monoBugSpline.monotonic 0 3 false = 1 ∧
    monoBugSpline.monotonicSeg 1 (monoBugSpline.x 1) (monoBugSpline.x 2) 1 =
      (-1, 0) ∧
    monoBugSpline.evalDerivative (1 / 2) false = 5 / 4 ∧
    monoBugSpline.evalDerivative (3 / 2) false = -(3 / 2) := by
  have hloopstep : monotonicLoop monoBugSpline 2 5 1 1 = Sum.inr 1 := by
    rw [show (5 : ℕ) = 4 + 1 from rfl, monotonicLoop_succ]
    norm_num
  refine ⟨?_, ?_, ?_, ?_, ?_, ?_, ?_, ?_⟩
  · rw [monoBug_limit, monoBug_raw0]
    norm_num [monoBugSpline]
  · rw [monoBug_limit, monoBug_raw1]
    norm_num [monoBugSpline]
  · rw [monoBug_limit, monoBug_raw2]
    norm_num [monoBugSpline]
  · rw [monoBug_limit, monoBug_raw3]
    norm_num [monoBugSpline]
  · unfold monotonic
    norm_num [Spline.xMin, Spline.xMax, monoBug_x, monoBug_n,
      monoBug_seg_zero, monoBug_seg_three, monoBug_msg0, monoBug_msg2,
      hloopstep]
  · rw [show monoBugSpline.x 1 = (1 : ℝ) by rw [monoBug_x]; norm_num,
      show monoBugSpline.x 2 = (2 : ℝ) by rw [monoBug_x]; norm_num]
    exact monoBug_msg1
  · unfold evalDerivative
    rw [if_neg (by simp), if_neg (by simp), monoBug_seg_half]
    rw [evalDerivative_eq_monomial _ 0
      (by show monoBugSpline.h_ 1 ≠ 0; rw [monoBug_h 1 (by omega)]; norm_num)]
    rw [monoBug_a0, monoBug_b0, monoBug_c0]
    norm_num
  · unfold evalDerivative
    rw [if_neg (by simp), if_neg (by simp), monoBug_seg_threehalf]
    rw [evalDerivative_eq_monomial _ 1
      (by show monoBugSpline.h_ 2 ≠ 0; rw [monoBug_h 2 (by omega)]; norm_num)]
    rw [monoBug_a1, monoBug_b1, monoBug_c1]
    norm_num

end Spline

end OpmCore
